import Mathlib

/-
Shallow embedding of `src/scripts/validate-circular-dependencies.py`
(the assembly-dependency validator of TWG-MetVanDamn).

Modelling conventions:
  * A parsed `.asmdef` manifest becomes an `Asmdef` record; the input of the
    pipeline is a `List (Option Asmdef)` (one entry per file found on disk,
    `none` for a file `parse_asmdef` failed to parse).
  * Python dicts keep insertion order and overwrite values in place, so the
    `assemblies` dict and the `defaultdict(list)` graph are modelled as
    insertion-ordered association lists with exactly those update rules.
  * The recursive DFS of `detect_circular_dependencies` is modelled with a
    fuel parameter (structural recursion); `fuelBound` is large enough that
    the fuel never runs out, which the lemmas below establish.
  * An isolation violation is recorded by the source as a formatted message
    naming the shared assembly and the feature assembly it imports; it is
    modelled as the pair of those two names.
-/

structure Asmdef where
  name : String
  references : List String
  path : String
deriving DecidableEq

abbrev Assemblies := List (String × Asmdef)

abbrev Graph := List (String × List String)

/-- Python `graph.get(node, [])`: the adjacency list stored for `n`, or `[]`. -/
def Graph.get (g : Graph) (n : String) : List String :=
  ((g.find? (fun p => p.1 == n)).map Prod.snd).getD []

/-- The keys of the graph dict, in insertion order (Python `for node in graph`). -/
def Graph.keys (g : Graph) : List String := g.map Prod.fst

/-- All edge targets stored anywhere in the graph. -/
def Graph.targets (g : Graph) : List String := (g.map Prod.snd).flatten

/-- Every name occurring in the graph (keys and edge targets). -/
def Graph.univ (g : Graph) : List String := Graph.keys g ++ Graph.targets g

/-- Edge relation: `Graph.Edge g a b` holds when the graph stores an edge from `a` to `b`. -/
def Graph.Edge (g : Graph) (a b : String) : Prop := b ∈ Graph.get g a

instance (g : Graph) (a b : String) : Decidable (Graph.Edge g a b) :=
  inferInstanceAs (Decidable (b ∈ Graph.get g a))

/-- Python `'sub' in hay`: case-sensitive substring test, as a proposition. -/
def ContainsSub (hay sub : String) : Prop := sub.data <:+: hay.data

instance (hay sub : String) : Decidable (ContainsSub hay sub) :=
  inferInstanceAs (Decidable (sub.data <:+: hay.data))

/-- Python `'sub' in hay`, the executable boolean used inside the checkers. -/
def containsSubB (hay sub : String) : Bool := decide (ContainsSub hay sub)

/-- Python `assemblies[a.name] = a` on a dict: overwrite in place if the key
exists (keeping its position), otherwise append a new entry. -/
def updateAssemblies (assemblies : Assemblies) (a : Asmdef) : Assemblies :=
  if assemblies.any (fun p => p.1 == a.name) then
    assemblies.map (fun p => if p.1 == a.name then (p.1, a) else p)
  else
    assemblies ++ [(a.name, a)]

/-- First pass of `build_dependency_graph`: collect all successfully parsed
assemblies into the `assemblies` dict (`assemblies[asmdef['name']] = asmdef`). -/
def collectAssemblies (parsed : List (Option Asmdef)) : Assemblies :=
  parsed.foldl (fun acc o => match o with
    | some a => updateAssemblies acc a
    | none => acc) []

/-- Dict lookup `assemblies[n]` (as an `Option`). -/
def lookupAssembly (assemblies : Assemblies) (n : String) : Option Asmdef :=
  (assemblies.find? (fun p => p.1 == n)).map Prod.snd

/-- Python `ref in assemblies`: key membership in the assemblies dict. -/
def isKnown (assemblies : Assemblies) (r : String) : Bool :=
  assemblies.any (fun p => p.1 == r)

/-- Python `graph[name].append(ref)` on a `defaultdict(list)`: append to the stored
list if the key exists, otherwise create the key (at the end) with `[ref]`. -/
def addEdge (g : Graph) (name ref : String) : Graph :=
  if g.any (fun p => p.1 == name) then
    g.map (fun p => if p.1 == name then (p.1, p.2 ++ [ref]) else p)
  else
    g ++ [(name, [ref])]

/-- Inner loop of the second pass: `for ref in asmdef['references']:
if ref in assemblies: graph[name].append(ref)`. -/
def addEdges (assemblies : Assemblies) (g : Graph) (name : String)
    (refs : List String) : Graph :=
  refs.foldl (fun g r => if isKnown assemblies r then addEdge g name r else g) g

/-- Second pass of `build_dependency_graph`: for every collected assembly, in
dict order, add its known references as edges. -/
def buildGraph (assemblies : Assemblies) : Graph :=
  assemblies.foldl (fun g p => addEdges assemblies g p.1 p.2.references) []

/-- Function `build_dependency_graph`: collect assemblies, then add every reference
whose target is itself a known assembly. -/
def build_dependency_graph (parsed : List (Option Asmdef)) : Graph × Assemblies :=
  let assemblies := collectAssemblies parsed
  (buildGraph assemblies, assemblies)

/-- Function `validate_shared_namespace_isolation`, with each recorded violation
modelled as the pair (shared assembly name, feature assembly name) that the
source interpolates into its message string. -/
def validate_shared_namespace_isolation (g : Graph) (assemblies : Assemblies) :
    List (String × String) :=
  let assemblyNames := assemblies.map Prod.fst
  let shared_assemblies := assemblyNames.filter (fun n => containsSubB n "Shared")
  let feature_assemblies := assemblyNames.filter
    (fun n => !(containsSubB n "Shared" || containsSubB n "Unity."))
  shared_assemblies.flatMap (fun shared =>
    ((Graph.get g shared).filter (fun ref => feature_assemblies.contains ref)).map
      (fun ref => (shared, ref)))

/-- Total length of all adjacency lists (an upper bound for any `Graph.get`). -/
def Esum (g : Graph) : Nat := (g.map (fun p => p.2.length)).sum

/-- Number of graph names not yet visited; the decreasing measure of the DFS. -/
def unvisitedCount (g : Graph) (visited : List String) : Nat :=
  ((Graph.univ g).toFinset \ visited.toFinset).card

/-- Fuel that is provably sufficient for the DFS to run to completion. -/
def fuelBound (g : Graph) : Nat :=
  ((Graph.univ g).toFinset.card + 1) * (Esum g + 1) + 1

/-- The neighbor loop of the inner `dfs` of `detect_circular_dependencies`,
fused with the body of `dfs` (the recursive call on an unvisited neighbor is
inlined) so that the recursion is structural on the fuel.  State returned:
the found cycle, if any, together with the final `visited` set.  `rec_stack`
mutations net out to zero across a completed recursive call, so passing the
extended stack down and reusing it in the continuation models the Python
`add`/`remove` pair exactly. -/
def dfsNeighbors (g : Graph) :
    Nat → List String → List String → List String → List String →
    Option (List String) × List String
  | 0, _, visited, _, _ => (none, visited)
  | _ + 1, [], visited, _, _ => (none, visited)
  | fuel + 1, neighbor :: rest, visited, recStack, path =>
    if neighbor ∉ visited then
      match dfsNeighbors g fuel (Graph.get g neighbor) (neighbor :: visited)
          (neighbor :: recStack) (path ++ [neighbor]) with
      | (some cycle, visited') => (some cycle, visited')
      | (none, visited') => dfsNeighbors g fuel rest visited' recStack path
    else if neighbor ∈ recStack then
      (some (path.drop (path.indexOf neighbor) ++ [neighbor]), visited)
    else
      dfsNeighbors g fuel rest visited recStack path

/-- The inner `dfs(node, visited, rec_stack, path)`: mark the node visited and
on the stack, then walk its neighbors. -/
def dfs (g : Graph) (fuel : Nat) (node : String)
    (visited recStack path : List String) : Option (List String) × List String :=
  match fuel with
  | 0 => (none, visited)
  | fuel + 1 =>
    dfsNeighbors g fuel (Graph.get g node) (node :: visited) (node :: recStack) path

/-- The driver loop of `detect_circular_dependencies`:
`for node in graph: if node not in visited: ...`, threading `visited`. -/
def detectLoop (g : Graph) : List String → List String →
    Option (List String) × List String
  | [], visited => (none, visited)
  | node :: rest, visited =>
    if node ∉ visited then
      match dfs g (fuelBound g) node visited [] [node] with
      | (some cycle, visited') => (some cycle, visited')
      | (none, visited') => detectLoop g rest visited'
    else
      detectLoop g rest visited

/-- Python `detect_circular_dependencies(graph)`: first cycle found, or `none`. -/
def detect_circular_dependencies (g : Graph) : Option (List String) :=
  (detectLoop g (Graph.keys g) []).1

/-- The observable behaviour of `main()` on an already-parsed module set:
exit code, the reported cycle (if any), and the reported violation list.
When a cycle is found, `main` returns 1 immediately and the isolation check
is never executed, hence the reported violation list is empty in that branch. -/
def mainReport (parsed : List (Option Asmdef)) :
    Nat × Option (List String) × List (String × String) :=
  let p := build_dependency_graph parsed
  match detect_circular_dependencies p.1 with
  | some cycle => (1, some cycle, [])
  | none =>
    let violations := validate_shared_namespace_isolation p.1 p.2
    (if violations.isEmpty then 0 else 1, none, violations)

/-- The process exit code of `main()` (what `sys.exit(main())` reports). -/
def mainExit (parsed : List (Option Asmdef)) : Nat := (mainReport parsed).1

/-- Modelled from the spec: the spec describes the Cycle Detector as starting
its depth-first searches "in the deterministic node-iteration order chosen by
the caller (module names sorted ascending)".  This definition runs the very
same DFS but with the starting nodes in ascending sorted order, to be compared
against `detect_circular_dependencies`, which iterates keys in insertion
order. -/
def detect_sorted_spec (g : Graph) : Option (List String) :=
  (detectLoop g ((Graph.keys g).insertionSort (· ≤ ·)) []).1

/-- A simple cycle of the graph: a nonempty duplicate-free node sequence in
which consecutive nodes are joined by edges and the last node has an edge back
to the first. -/
def IsSimpleCycle (g : Graph) (c : List String) : Prop :=
  c ≠ [] ∧ c.Nodup ∧ List.Chain' (Graph.Edge g) c ∧
    Graph.Edge g (c.getLastD "") (c.headD "")

instance (g : Graph) (c : List String) : Decidable (IsSimpleCycle g c) :=
  inferInstanceAs (Decidable (c ≠ [] ∧ c.Nodup ∧ List.Chain' (Graph.Edge g) c ∧
    Graph.Edge g (c.getLastD "") (c.headD "")))

/-- All edges of the graph as explicit pairs, in storage order. -/
def edgePairs (g : Graph) : List (String × String) :=
  g.flatMap (fun p => p.2.map (fun t => (p.1, t)))

/-- The boolean "shared source, feature target" test on an edge pair,
matching the classification of `validate_shared_namespace_isolation`. -/
def sharedFeaturePairB (p : String × String) : Bool :=
  containsSubB p.1 "Shared" &&
    !(containsSubB p.2 "Shared" || containsSubB p.2 "Unity.")

/-- The number of distinct shared-to-feature edges present in the graph. -/
def distinctSharedFeatureEdgeCount (g : Graph) : Nat :=
  (((edgePairs g).filter sharedFeaturePairB).dedup).length

/-- Invariant of the DFS: every fully processed ("black") node — visited and
no longer on the recursion stack — has all its successors fully processed and
lies on no closed walk of the graph. -/
def BlackInv (g : Graph) (V rs : List String) : Prop :=
  ∀ v, v ∈ V → v ∉ rs →
    (∀ w, w ∈ Graph.get g v → w ∈ V ∧ w ∉ rs) ∧
    ∀ l, ¬ List.Chain (Graph.Edge g) v (l ++ [v])

/-- Concrete module set with both a dependency cycle and an isolation
violation (the shared assembly imports the feature assembly and vice versa). -/
def cycleAndViolationInput : List (Option Asmdef) :=
  [some ⟨"SharedX", ["FeatY"], "SharedX.asmdef"⟩,
   some ⟨"FeatY", ["SharedX"], "FeatY.asmdef"⟩]

/-- Concrete module set with one shared-to-feature edge and no cycle. -/
def oneViolationInput : List (Option Asmdef) :=
  [some ⟨"SharedX", ["FeatY"], "SharedX.asmdef"⟩,
   some ⟨"FeatY", [], "FeatY.asmdef"⟩]

/-- Concrete module set whose shared module lists the same feature reference
twice, producing a duplicated edge. -/
def duplicateRefInput : List (Option Asmdef) :=
  [some ⟨"SharedA", ["FeatB", "FeatB"], "SharedA.asmdef"⟩,
   some ⟨"FeatB", [], "FeatB.asmdef"⟩]

/-- Concrete module set with two self-loop modules inserted in non-sorted
order. -/
def twoLoopsInput : List (Option Asmdef) :=
  [some ⟨"B", ["B"], "B.asmdef"⟩, some ⟨"A", ["A"], "A.asmdef"⟩]

/-- Concrete module set with a two-module cycle discovered before a
self-referencing module. -/
def cycleBeforeSelfLoopInput : List (Option Asmdef) :=
  [some ⟨"A", ["B"], "A.asmdef"⟩, some ⟨"B", ["A"], "B.asmdef"⟩,
   some ⟨"C", ["C"], "C.asmdef"⟩]

/-- Two manifest records declaring the same module name. -/
def firstManifestM : Asmdef := ⟨"M", ["X"], "first.asmdef"⟩

/-- Second manifest record for the same module name `M`. -/
def secondManifestM : Asmdef := ⟨"M", [], "second.asmdef"⟩

/-- A concrete acyclic two-node graph. -/
def acyclicGraphW : Graph := [("A", ["B"]), ("B", [])]

/-- A concrete graph whose only simple cycle is the self-loop on `A`. -/
def selfLoopGraphW : Graph := [("A", ["A"])]

/-- A concrete graph with sorted keys, each carrying a self-loop. -/
def sortedKeysGraphW : Graph := [("A", ["A"]), ("B", ["B"])]

/-- A self-referencing manifest record. -/
def selfRefManifest : Asmdef := ⟨"S", ["S"], "S.asmdef"⟩

example : Graph.get [("A", ["B"])] "A" = ["B"] := by decide
example :
    detect_circular_dependencies [("B", ["B"]), ("A", ["A"])] = some ["B", "B"] := by
  decide
example : detect_circular_dependencies [("A", ["B"]), ("B", [])] = none := by decide
example :
    detect_circular_dependencies [("A", ["B"]), ("B", ["C"]), ("C", ["A"])] =
      some ["A", "B", "C", "A"] := by decide

/-! ### Association-list facts about the dicts used by the validator -/

theorem any_key_iff {α : Type} (l : List (String × α)) (n : String) :
    (l.any (fun p => p.1 == n)) = true ↔ n ∈ l.map Prod.fst := by
  simp only [List.any_eq_true, List.mem_map, beq_iff_eq]

theorem Graph.get_cons (q : String × List String) (g : Graph) (m : String) :
    Graph.get (q :: g) m = if q.1 = m then q.2 else Graph.get g m := by
  unfold Graph.get
  by_cases h : q.1 = m
  · rw [List.find?_cons_of_pos _ (by simpa using h), if_pos h]
    rfl
  · rw [List.find?_cons_of_neg _ (by simpa using h), if_neg h]

theorem Graph.get_eq_nil_of_not_mem_keys {g : Graph} {n : String}
    (h : n ∉ Graph.keys g) : Graph.get g n = [] := by
  unfold Graph.get
  rw [List.find?_eq_none.mpr]
  · rfl
  · intro p hp hbeq
    exact h (List.mem_map.mpr ⟨p, hp, beq_iff_eq.mp hbeq⟩)

theorem Graph.get_entry {g : Graph} (hnd : (Graph.keys g).Nodup)
    {p : String × List String} (hp : p ∈ g) : Graph.get g p.1 = p.2 := by
  induction g with
  | nil => cases hp
  | cons q g ih =>
    rw [Graph.get_cons]
    rcases List.mem_cons.mp hp with rfl | hp'
    · rw [if_pos rfl]
    · have hq : q.1 ≠ p.1 := by
        intro he
        exact (List.nodup_cons.mp hnd).1 (he ▸ List.mem_map.mpr ⟨p, hp', rfl⟩)
      rw [if_neg hq]
      exact ih (List.nodup_cons.mp hnd).2 hp'

theorem get_map_addEdge_ne (g : Graph) (n r m : String) (h : m ≠ n) :
    Graph.get (g.map (fun p => if p.1 == n then (p.1, p.2 ++ [r]) else p)) m =
      Graph.get g m := by
  induction g with
  | nil => rfl
  | cons q g ih =>
    rw [List.map_cons, Graph.get_cons, Graph.get_cons]
    have hfst : (if q.1 == n then (q.1, q.2 ++ [r]) else q).1 = q.1 := by
      by_cases hq : q.1 == n <;> simp [hq]
    by_cases hqm : q.1 = m
    · rw [hfst, if_pos hqm, if_pos hqm]
      have hqn : ¬(q.1 == n) = true := by
        simp only [beq_iff_eq]; exact fun he => h (hqm ▸ he)
      simp [hqn]
    · rw [hfst, if_neg hqm, if_neg hqm, ih]

theorem get_map_addEdge_self (g : Graph) (n r : String) (hk : n ∈ Graph.keys g) :
    Graph.get (g.map (fun p => if p.1 == n then (p.1, p.2 ++ [r]) else p)) n =
      Graph.get g n ++ [r] := by
  induction g with
  | nil => cases hk
  | cons q g ih =>
    rw [List.map_cons, Graph.get_cons, Graph.get_cons]
    by_cases hq : q.1 = n
    · have : (q.1 == n) = true := beq_iff_eq.mpr hq
      simp only [this, if_true]
      rw [if_pos hq, if_pos hq]
    · have hbeq : ¬(q.1 == n) = true := by simpa [beq_iff_eq] using hq
      simp only [hbeq, if_false, Bool.false_eq_true]
      rw [if_neg hq, if_neg hq]
      have hk' : n ∈ Graph.keys g := by
        rcases List.mem_cons.mp hk with he | h' 
        · exact absurd he.symm hq
        · exact h'
      exact ih hk'

theorem get_append_single (g : Graph) (n r m : String) (h : n ∉ Graph.keys g) :
    Graph.get (g ++ [(n, [r])]) m =
      if m = n then Graph.get g m ++ [r] else Graph.get g m := by
  induction g with
  | nil =>
    rw [List.nil_append, Graph.get_cons]
    by_cases hm : m = n
    · simp [hm, Graph.get]
    · rw [if_neg (fun he => hm he.symm), if_neg hm]
  | cons q g ih =>
    simp only [Graph.keys, List.map_cons, List.mem_cons, not_or] at h
    rw [List.cons_append, Graph.get_cons, Graph.get_cons]
    by_cases hqm : q.1 = m
    · rw [if_pos hqm, if_pos hqm]
      have : m ≠ n := fun he => h.1 (hqm.trans he).symm
      rw [if_neg this]
    · rw [if_neg hqm, if_neg hqm, ih h.2]

theorem get_addEdge (g : Graph) (n r m : String) :
    Graph.get (addEdge g n r) m =
      if m = n then Graph.get g m ++ [r] else Graph.get g m := by
  unfold addEdge
  by_cases hk : (g.any (fun p => p.1 == n)) = true
  · rw [if_pos hk]
    by_cases hm : m = n
    · subst hm
      rw [if_pos rfl, get_map_addEdge_self g m r ((any_key_iff g m).mp hk)]
    · rw [if_neg hm, get_map_addEdge_ne g n r m hm]
  · rw [if_neg hk]
    exact get_append_single g n r m (fun h' => hk ((any_key_iff g n).mpr h'))

theorem keys_addEdge (g : Graph) (n r : String) :
    Graph.keys (addEdge g n r) =
      if n ∈ Graph.keys g then Graph.keys g else Graph.keys g ++ [n] := by
  unfold addEdge
  by_cases hk : (g.any (fun p => p.1 == n)) = true
  · have hk' : n ∈ Graph.keys g := (any_key_iff g n).mp hk
    rw [if_pos hk, if_pos hk']
    unfold Graph.keys
    rw [List.map_map]
    apply List.map_congr_left
    intro p _
    by_cases hq : p.1 = n <;> simp [hq]
  · have hk' : n ∉ Graph.keys g := fun h' => hk ((any_key_iff g n).mpr h')
    rw [if_neg hk, if_neg hk']
    unfold Graph.keys
    simp

theorem keys_nodup_addEdge (g : Graph) (n r : String)
    (h : (Graph.keys g).Nodup) : (Graph.keys (addEdge g n r)).Nodup := by
  rw [keys_addEdge]
  by_cases hk : n ∈ Graph.keys g
  · rwa [if_pos hk]
  · rw [if_neg hk]
    simp [List.nodup_append, h, hk]

theorem lookupAssembly_cons (q : String × Asmdef) (asm : Assemblies) (m : String) :
    lookupAssembly (q :: asm) m =
      if q.1 = m then some q.2 else lookupAssembly asm m := by
  unfold lookupAssembly
  by_cases h : q.1 = m
  · rw [List.find?_cons_of_pos _ (by simpa using h), if_pos h]
    rfl
  · rw [List.find?_cons_of_neg _ (by simpa using h), if_neg h]

theorem isKnown_iff (asm : Assemblies) (r : String) :
    isKnown asm r = true ↔ r ∈ asm.map Prod.fst := any_key_iff asm r

theorem lookupAssembly_eq_none {asm : Assemblies} {n : String}
    (h : n ∉ asm.map Prod.fst) : lookupAssembly asm n = none := by
  unfold lookupAssembly
  rw [List.find?_eq_none.mpr]
  · rfl
  · intro p hp hbeq
    exact h (List.mem_map.mpr ⟨p, hp, beq_iff_eq.mp hbeq⟩)

theorem lookup_map_update_self (asm : Assemblies) (a : Asmdef)
    (hk : a.name ∈ asm.map Prod.fst) :
    lookupAssembly (asm.map (fun p => if p.1 == a.name then (p.1, a) else p))
      a.name = some a := by
  induction asm with
  | nil => cases hk
  | cons q asm ih =>
    rw [List.map_cons, lookupAssembly_cons]
    by_cases hq : q.1 = a.name
    · simp [hq]
    · have hbeq : ¬(q.1 == a.name) = true := by simpa [beq_iff_eq] using hq
      simp only [hbeq, if_false, Bool.false_eq_true]
      rw [if_neg hq]
      rcases List.mem_cons.mp (List.map_cons Prod.fst q asm ▸ hk) with he | h'
      · exact absurd he.symm hq
      · exact ih h'

theorem lookup_map_update_ne (asm : Assemblies) (a : Asmdef) (m : String)
    (h : m ≠ a.name) :
    lookupAssembly (asm.map (fun p => if p.1 == a.name then (p.1, a) else p)) m =
      lookupAssembly asm m := by
  induction asm with
  | nil => rfl
  | cons q asm ih =>
    rw [List.map_cons, lookupAssembly_cons, lookupAssembly_cons]
    have hfst : (if q.1 == a.name then (q.1, a) else q).1 = q.1 := by
      by_cases hq : q.1 = a.name <;> simp [hq]
    rw [hfst]
    by_cases hqm : q.1 = m
    · rw [if_pos hqm, if_pos hqm]
      have hqa : ¬(q.1 == a.name) = true := by
        simp only [beq_iff_eq]
        exact fun he => h (hqm ▸ he)
      simp [hqa]
    · rw [if_neg hqm, if_neg hqm, ih]

theorem lookup_append_single_self (asm : Assemblies) (a : Asmdef) :
    lookupAssembly (asm ++ [(a.name, a)]) a.name =
      ((lookupAssembly asm a.name).getD a |> some) := by
  induction asm with
  | nil =>
    rw [List.nil_append, lookupAssembly_cons, if_pos rfl]
    rfl
  | cons q asm ih =>
    rw [List.cons_append, lookupAssembly_cons, lookupAssembly_cons]
    by_cases hq : q.1 = a.name
    · rw [if_pos hq, if_pos hq]
      rfl
    · rw [if_neg hq, if_neg hq, ih]

theorem lookup_append_single_ne (asm : Assemblies) (a : Asmdef) (m : String)
    (h : m ≠ a.name) :
    lookupAssembly (asm ++ [(a.name, a)]) m = lookupAssembly asm m := by
  induction asm with
  | nil =>
    rw [List.nil_append, lookupAssembly_cons, if_neg (fun he => h he.symm)]
  | cons q asm ih =>
    rw [List.cons_append, lookupAssembly_cons, lookupAssembly_cons]
    by_cases hq : q.1 = m
    · rw [if_pos hq, if_pos hq]
    · rw [if_neg hq, if_neg hq, ih]

theorem lookupAssembly_update_self (asm : Assemblies) (a : Asmdef) :
    lookupAssembly (updateAssemblies asm a) a.name = some a := by
  unfold updateAssemblies
  by_cases hk : (asm.any (fun p => p.1 == a.name)) = true
  · rw [if_pos hk]
    exact lookup_map_update_self asm a ((any_key_iff asm a.name).mp hk)
  · rw [if_neg hk, lookup_append_single_self,
      lookupAssembly_eq_none (fun h' => hk ((any_key_iff asm a.name).mpr h'))]
    rfl

theorem lookupAssembly_update_ne (asm : Assemblies) (a : Asmdef) (m : String)
    (h : m ≠ a.name) :
    lookupAssembly (updateAssemblies asm a) m = lookupAssembly asm m := by
  unfold updateAssemblies
  by_cases hk : (asm.any (fun p => p.1 == a.name)) = true
  · rw [if_pos hk]
    exact lookup_map_update_ne asm a m h
  · rw [if_neg hk]
    exact lookup_append_single_ne asm a m h

theorem names_update (asm : Assemblies) (a : Asmdef) :
    (updateAssemblies asm a).map Prod.fst =
      if a.name ∈ asm.map Prod.fst then asm.map Prod.fst
      else asm.map Prod.fst ++ [a.name] := by
  unfold updateAssemblies
  by_cases hk : (asm.any (fun p => p.1 == a.name)) = true
  · have hk' : a.name ∈ asm.map Prod.fst := (any_key_iff asm a.name).mp hk
    rw [if_pos hk, if_pos hk', List.map_map]
    apply List.map_congr_left
    intro p _
    by_cases hq : p.1 = a.name <;> simp [hq]
  · have hk' : a.name ∉ asm.map Prod.fst := fun h' => hk ((any_key_iff asm a.name).mpr h')
    rw [if_neg hk, if_neg hk']
    simp

theorem names_nodup_update (asm : Assemblies) (a : Asmdef)
    (h : (asm.map Prod.fst).Nodup) : ((updateAssemblies asm a).map Prod.fst).Nodup := by
  rw [names_update]
  by_cases hk : a.name ∈ asm.map Prod.fst
  · rwa [if_pos hk]
  · rw [if_neg hk]
    simp [List.nodup_append, h, hk]

theorem collect_names_nodup (parsed : List (Option Asmdef)) :
    ((collectAssemblies parsed).map Prod.fst).Nodup := by
  unfold collectAssemblies
  suffices h : ∀ (acc : Assemblies), (acc.map Prod.fst).Nodup →
      ((parsed.foldl (fun acc o => match o with
        | some a => updateAssemblies acc a
        | none => acc) acc).map Prod.fst).Nodup by
    exact h [] (by simp)
  induction parsed with
  | nil => intro acc hacc; exact hacc
  | cons o parsed ih =>
    intro acc hacc
    rw [List.foldl_cons]
    match o with
    | some a => exact ih _ (names_nodup_update acc a hacc)
    | none => exact ih _ hacc

theorem mem_update (asm : Assemblies) (a : Asmdef) (p : String × Asmdef)
    (hp : p ∈ updateAssemblies asm a) : p ∈ asm ∨ p = (a.name, a) := by
  unfold updateAssemblies at hp
  by_cases hk : (asm.any (fun p => p.1 == a.name)) = true
  · rw [if_pos hk] at hp
    rcases List.mem_map.mp hp with ⟨q, hq, he⟩
    by_cases hqa : q.1 = a.name
    · right
      rw [← he]
      simp [hqa]
    · left
      rw [← he]
      simpa [hqa] using hq
  · rw [if_neg hk] at hp
    rcases List.mem_append.mp hp with h' | h'
    · exact Or.inl h'
    · exact Or.inr (by simpa using h')

theorem mem_collect_source (parsed : List (Option Asmdef)) :
    ∀ p ∈ collectAssemblies parsed, ∃ a, some a ∈ parsed ∧ p = (a.name, a) := by
  unfold collectAssemblies
  suffices h : ∀ (acc : Assemblies),
      ∀ p ∈ parsed.foldl (fun acc o => match o with
        | some a => updateAssemblies acc a
        | none => acc) acc,
        p ∈ acc ∨ ∃ a, some a ∈ parsed ∧ p = (a.name, a) by
    intro p hp
    rcases h [] p hp with h' | h'
    · cases h'
    · exact h'
  induction parsed with
  | nil => intro acc p hp; exact Or.inl hp
  | cons o parsed ih =>
    intro acc p hp
    rw [List.foldl_cons] at hp
    match o with
    | some a =>
      rcases ih (updateAssemblies acc a) p hp with h' | ⟨b, hb, he⟩
      · rcases mem_update acc a p h' with h'' | h''
        · exact Or.inl h''
        · exact Or.inr ⟨a, List.mem_cons_self _ _, h''⟩
      · exact Or.inr ⟨b, List.mem_cons.mpr (Or.inr hb), he⟩
    | none =>
      rcases ih acc p hp with h' | ⟨b, hb, he⟩
      · exact Or.inl h'
      · exact Or.inr ⟨b, List.mem_cons.mpr (Or.inr hb), he⟩

theorem collect_append_some (parsed : List (Option Asmdef)) (a : Asmdef) :
    collectAssemblies (parsed ++ [some a]) =
      updateAssemblies (collectAssemblies parsed) a := by
  unfold collectAssemblies
  rw [List.foldl_append]
  rfl

/-! ### Characterisation of the built dependency graph -/

theorem get_addEdges (asm : Assemblies) (g : Graph) (n : String)
    (refs : List String) (m : String) :
    Graph.get (addEdges asm g n refs) m =
      if m = n then Graph.get g m ++ refs.filter (isKnown asm)
      else Graph.get g m := by
  induction refs generalizing g with
  | nil =>
    by_cases hm : m = n <;> simp [addEdges, hm]
  | cons r rs ih =>
    unfold addEdges at ih ⊢
    rw [List.foldl_cons]
    by_cases hr : isKnown asm r = true
    · rw [if_pos hr, ih, get_addEdge]
      by_cases hm : m = n
      · rw [if_pos hm, if_pos hm, if_pos hm, List.filter_cons_of_pos hr]
        simp
      · rw [if_neg hm, if_neg hm, if_neg hm]
    · rw [if_neg hr, ih, List.filter_cons_of_neg (by simpa using hr)]

theorem mem_keys_addEdge_self (g : Graph) (n r : String) :
    n ∈ Graph.keys (addEdge g n r) := by
  rw [keys_addEdge]
  by_cases hk : n ∈ Graph.keys g
  · rwa [if_pos hk]
  · rw [if_neg hk]
    simp

theorem keys_addEdges (asm : Assemblies) (g : Graph) (n : String)
    (refs : List String) :
    Graph.keys (addEdges asm g n refs) =
      if n ∉ Graph.keys g ∧ refs.any (isKnown asm) then Graph.keys g ++ [n]
      else Graph.keys g := by
  induction refs generalizing g with
  | nil => simp [addEdges]
  | cons r rs ih =>
    unfold addEdges at ih ⊢
    rw [List.foldl_cons]
    by_cases hr : isKnown asm r = true
    · rw [if_pos hr, ih, keys_addEdge]
      have hmem := mem_keys_addEdge_self g n r
      rw [keys_addEdge] at hmem
      by_cases hk : n ∈ Graph.keys g
      · rw [if_pos hk] at hmem ⊢
        rw [if_neg (by simp [hmem]), if_neg (by simp [hk])]
      · rw [if_neg hk] at hmem ⊢
        rw [if_neg (by simp [hmem]), if_pos ⟨hk, by simp [hr]⟩]
    · rw [if_neg hr, ih]
      have : (r :: rs).any (isKnown asm) = rs.any (isKnown asm) := by
        simp [List.any_cons, hr]
      rw [this]

theorem get_buildFold (asm : Assemblies) (entries : Assemblies) :
    ∀ (g : Graph) (n : String), ((entries.map Prod.fst).Nodup) →
      Graph.get (entries.foldl (fun g p => addEdges asm g p.1 p.2.references) g) n =
        (match entries.find? (fun p => p.1 == n) with
         | some p => Graph.get g n ++ p.2.references.filter (isKnown asm)
         | none => Graph.get g n) := by
  induction entries with
  | nil => intro g n _; rfl
  | cons p entries ih =>
    intro g n hnd
    rw [List.foldl_cons]
    by_cases hp : p.1 = n
    · rw [List.find?_cons_of_pos _ (by simpa using hp)]
      have hnone : entries.find? (fun q => q.1 == n) = none := by
        rw [List.find?_eq_none]
        intro q hq hbeq
        rw [List.map_cons] at hnd
        exact (List.nodup_cons.mp hnd).1
          (hp ▸ beq_iff_eq.mp hbeq ▸ List.mem_map.mpr ⟨q, hq, rfl⟩)
      rw [ih _ n (List.nodup_cons.mp (List.map_cons Prod.fst p entries ▸ hnd)).2,
        hnone, get_addEdges, if_pos (hp.symm)]
    · rw [List.find?_cons_of_neg _ (by simpa using hp)]
      rw [ih _ n (List.nodup_cons.mp (List.map_cons Prod.fst p entries ▸ hnd)).2]
      have hget : Graph.get (addEdges asm g p.1 p.2.references) n = Graph.get g n := by
        rw [get_addEdges, if_neg (fun he => hp he.symm)]
      rcases hfind : entries.find? (fun q => q.1 == n) with _ | q
      · simp only [hget]
      · simp only [hget]

theorem keys_buildFold (asm : Assemblies) (entries : Assemblies) :
    ∀ (g : Graph), ((entries.map Prod.fst).Nodup) →
      (∀ p ∈ entries, p.1 ∉ Graph.keys g) →
      Graph.keys (entries.foldl (fun g p => addEdges asm g p.1 p.2.references) g) =
        Graph.keys g ++
          ((entries.filter (fun p => p.2.references.any (isKnown asm))).map Prod.fst) := by
  induction entries with
  | nil => intro g _ _; simp
  | cons p entries ih =>
    intro g hnd hdisj
    rw [List.foldl_cons]
    have hnd' := (List.nodup_cons.mp (List.map_cons Prod.fst p entries ▸ hnd)).2
    have hpg : p.1 ∉ Graph.keys g := hdisj p (List.mem_cons_self _ _)
    by_cases hr : p.2.references.any (isKnown asm) = true
    · have hkeys : Graph.keys (addEdges asm g p.1 p.2.references) =
          Graph.keys g ++ [p.1] := by
        rw [keys_addEdges, if_pos ⟨hpg, hr⟩]
      have hdisj' : ∀ q ∈ entries, q.1 ∉ Graph.keys (addEdges asm g p.1 p.2.references) := by
        intro q hq
        rw [hkeys]
        simp only [List.mem_append, List.mem_singleton, not_or]
        refine ⟨fun h' => hdisj q (List.mem_cons.mpr (Or.inr hq)) h', ?_⟩
        intro he
        exact (List.nodup_cons.mp (List.map_cons Prod.fst p entries ▸ hnd)).1
          (he ▸ List.mem_map.mpr ⟨q, hq, rfl⟩)
      rw [ih _ hnd' hdisj', hkeys]
      simp [List.filter_cons, hr]
    · have hkeys : Graph.keys (addEdges asm g p.1 p.2.references) = Graph.keys g := by
        rw [keys_addEdges, if_neg (by simp [hr])]
      have hdisj' : ∀ q ∈ entries, q.1 ∉ Graph.keys (addEdges asm g p.1 p.2.references) := by
        intro q hq
        rw [hkeys]
        exact hdisj q (List.mem_cons.mpr (Or.inr hq))
      rw [ih _ hnd' hdisj', hkeys, List.filter_cons_of_neg (by simpa using hr)]

theorem get_build_of_lookup (parsed : List (Option Asmdef)) (n : String)
    (a : Asmdef) (h : lookupAssembly (collectAssemblies parsed) n = some a) :
    Graph.get (build_dependency_graph parsed).1 n =
      a.references.filter (isKnown (collectAssemblies parsed)) := by
  unfold build_dependency_graph buildGraph
  rw [get_buildFold _ _ _ _ (collect_names_nodup parsed)]
  unfold lookupAssembly at h
  rcases hfind : (collectAssemblies parsed).find? (fun p => p.1 == n) with _ | p
  · rw [hfind] at h; cases h
  · rw [hfind] at h ⊢
    have : p.2 = a := by simpa using h
    simp [this, Graph.get]

theorem get_build_of_lookup_none (parsed : List (Option Asmdef)) (n : String)
    (h : lookupAssembly (collectAssemblies parsed) n = none) :
    Graph.get (build_dependency_graph parsed).1 n = [] := by
  unfold build_dependency_graph buildGraph
  rw [get_buildFold _ _ _ _ (collect_names_nodup parsed)]
  unfold lookupAssembly at h
  rcases hfind : (collectAssemblies parsed).find? (fun p => p.1 == n) with _ | p
  · rw [hfind]
    simp [Graph.get]
  · rw [hfind] at h; cases h

theorem keys_build (parsed : List (Option Asmdef)) :
    Graph.keys (build_dependency_graph parsed).1 =
      (((collectAssemblies parsed).filter
        (fun p => p.2.references.any (isKnown (collectAssemblies parsed)))).map
          Prod.fst) := by
  unfold build_dependency_graph buildGraph
  rw [keys_buildFold _ _ _ (collect_names_nodup parsed) (by intro p _ h; cases h)]
  rfl

theorem keys_build_sublist (parsed : List (Option Asmdef)) :
    (Graph.keys (build_dependency_graph parsed).1).Sublist
      ((collectAssemblies parsed).map Prod.fst) := by
  rw [keys_build]
  exact (List.filter_sublist _).map Prod.fst

theorem keys_build_nodup (parsed : List (Option Asmdef)) :
    (Graph.keys (build_dependency_graph parsed).1).Nodup :=
  (collect_names_nodup parsed).sublist (keys_build_sublist parsed)

theorem keys_build_subset (parsed : List (Option Asmdef)) :
    ∀ n ∈ Graph.keys (build_dependency_graph parsed).1,
      n ∈ (collectAssemblies parsed).map Prod.fst :=
  fun _ h => (keys_build_sublist parsed).subset h

theorem lookup_mem_names (asm : Assemblies) (n : String) (a : Asmdef)
    (h : lookupAssembly asm n = some a) : n ∈ asm.map Prod.fst := by
  unfold lookupAssembly at h
  rcases hfind : asm.find? (fun p => p.1 == n) with _ | p
  · rw [hfind] at h; cases h
  · have hp := List.mem_of_find?_eq_some hfind
    have hbeq := List.find?_some hfind
    exact List.mem_map.mpr ⟨p, hp, beq_iff_eq.mp hbeq⟩

theorem edge_build_known (parsed : List (Option Asmdef)) (s t : String)
    (h : Graph.Edge (build_dependency_graph parsed).1 s t) :
    s ∈ (collectAssemblies parsed).map Prod.fst ∧
      t ∈ (collectAssemblies parsed).map Prod.fst := by
  rcases hl : lookupAssembly (collectAssemblies parsed) s with _ | a
  · rw [Graph.Edge, get_build_of_lookup_none _ _ hl] at h
    cases h
  · constructor
    · exact lookup_mem_names _ _ _ hl
    · rw [Graph.Edge, get_build_of_lookup _ _ _ hl] at h
      exact (isKnown_iff _ _).mp (List.of_mem_filter h)

theorem mem_validate_iff (g : Graph) (asm : Assemblies) (s t : String) :
    (s, t) ∈ validate_shared_namespace_isolation g asm ↔
      (s ∈ asm.map Prod.fst ∧ containsSubB s "Shared" = true ∧
       t ∈ Graph.get g s ∧ t ∈ asm.map Prod.fst ∧
       containsSubB t "Shared" = false ∧ containsSubB t "Unity." = false) := by
  show (s, t) ∈ ((asm.map Prod.fst).filter
      (fun n => containsSubB n "Shared")).flatMap (fun shared =>
        ((Graph.get g shared).filter (fun ref => (((asm.map Prod.fst).filter
          (fun n => !(containsSubB n "Shared" || containsSubB n "Unity."))).contains
            ref))).map (fun ref => (shared, ref))) ↔ _
  constructor
  · intro h
    rcases List.mem_flatMap.mp h with ⟨s', hs', hpair⟩
    rcases List.mem_map.mp hpair with ⟨r, hrmem, he⟩
    simp only [Prod.mk.injEq] at he
    obtain ⟨rfl, rfl⟩ := he
    rcases List.mem_filter.mp hs' with ⟨hs'mem, hs'sh⟩
    rcases List.mem_filter.mp hrmem with ⟨hrget, hrfeat⟩
    have hrf := List.mem_filter.mp (List.elem_iff.mp hrfeat)
    have h2 := hrf.2
    rw [Bool.not_eq_true', Bool.or_eq_false_iff] at h2
    exact ⟨hs'mem, hs'sh, hrget, hrf.1, h2.1, h2.2⟩
  · rintro ⟨hsmem, hssh, htget, htmem, ht1, ht2⟩
    refine List.mem_flatMap.mpr ⟨s, List.mem_filter.mpr ⟨hsmem, hssh⟩, ?_⟩
    refine List.mem_map.mpr ⟨t, ?_, rfl⟩
    refine List.mem_filter.mpr ⟨htget, ?_⟩
    refine List.elem_iff.mpr ?_
    refine List.mem_filter.mpr ⟨htmem, ?_⟩
    simp [ht1, ht2]

/-! ### Claims about the build pass, the exit code and the isolation check -/

/-- C9: for every pair of manifests that declare the same module name, the
record built from the later-processed manifest silently replaces the earlier
one in the module set (the pipeline is total, so no error is possible), and
the lookup of every other module name is unaffected. -/
theorem claimC9_duplicate_name_overwrite (parsed : List (Option Asmdef)) (a : Asmdef) :
    lookupAssembly (collectAssemblies (parsed ++ [some a])) a.name = some a ∧
    ∀ n, n ≠ a.name →
      lookupAssembly (collectAssemblies (parsed ++ [some a])) n =
        lookupAssembly (collectAssemblies parsed) n := by
  rw [collect_append_some]
  exact ⟨lookupAssembly_update_self _ a,
    fun n h => lookupAssembly_update_ne _ a n h⟩

/-- Witness for C9 at a concrete input: the second manifest for `M` wins and
the lookup of another name is untouched. -/
theorem claimC9_duplicate_name_overwrite_witness :
    lookupAssembly (collectAssemblies ([some firstManifestM] ++ [some secondManifestM]))
      "M" = some secondManifestM ∧
    lookupAssembly (collectAssemblies ([some firstManifestM] ++ [some secondManifestM]))
      "Other" = lookupAssembly (collectAssemblies [some firstManifestM]) "Other" :=
  ⟨(claimC9_duplicate_name_overwrite [some firstManifestM] secondManifestM).1,
   (claimC9_duplicate_name_overwrite [some firstManifestM] secondManifestM).2
     "Other" (by decide)⟩

/-- C8: the exit code of `main` is `0` exactly when no cycle was found and the
violation list is empty, and non-zero exactly when a cycle or at least one
isolation violation was found. -/
theorem claimC8_exit_code (parsed : List (Option Asmdef)) :
    (mainExit parsed = 0 ↔
      (detect_circular_dependencies (build_dependency_graph parsed).1 = none ∧
        validate_shared_namespace_isolation (build_dependency_graph parsed).1
          (build_dependency_graph parsed).2 = [])) ∧
    (mainExit parsed ≠ 0 ↔
      (detect_circular_dependencies (build_dependency_graph parsed).1 ≠ none ∨
        validate_shared_namespace_isolation (build_dependency_graph parsed).1
          (build_dependency_graph parsed).2 ≠ [])) := by
  rcases hdet : detect_circular_dependencies (build_dependency_graph parsed).1 with _ | c
  · by_cases hv : validate_shared_namespace_isolation (build_dependency_graph parsed).1
        (build_dependency_graph parsed).2 = []
    · simp [mainExit, mainReport, hdet, hv]
    · simp [mainExit, mainReport, hdet, hv, List.isEmpty_iff]
  · simp [mainExit, mainReport, hdet]

/-- C5: for every edge (s, t) of the built graph, a violation (s, t) is
recorded iff the name of `s` contains the substring "Shared" and the name of
`t` contains neither "Shared" nor "Unity." (i.e. `t` is a feature module). -/
theorem claimC5_violation_iff (parsed : List (Option Asmdef)) (s t : String)
    (h : Graph.Edge (build_dependency_graph parsed).1 s t) :
    ((s, t) ∈ validate_shared_namespace_isolation (build_dependency_graph parsed).1
        (build_dependency_graph parsed).2) ↔
      (ContainsSub s "Shared" ∧ ¬ ContainsSub t "Shared" ∧ ¬ ContainsSub t "Unity.") := by
  have hknown := edge_build_known parsed s t h
  have h2 : (build_dependency_graph parsed).2 = collectAssemblies parsed := rfl
  rw [mem_validate_iff, h2]
  unfold containsSubB
  constructor
  · rintro ⟨-, hssh, -, -, ht1, ht2⟩
    exact ⟨of_decide_eq_true hssh, of_decide_eq_false ht1, of_decide_eq_false ht2⟩
  · rintro ⟨hssh, ht1, ht2⟩
    exact ⟨hknown.1, decide_eq_true hssh, h, hknown.2,
      decide_eq_false ht1, decide_eq_false ht2⟩

/-- Witness for C5 at a concrete input: the edge SharedX → FeatY of
`oneViolationInput` is recorded as a violation. -/
theorem claimC5_violation_iff_witness :
    ("SharedX", "FeatY") ∈ validate_shared_namespace_isolation
        (build_dependency_graph oneViolationInput).1
        (build_dependency_graph oneViolationInput).2 :=
  (claimC5_violation_iff oneViolationInput "SharedX" "FeatY" (by decide)).mpr
    (by decide)

/-! ### Counting isolation violations (C4) -/

theorem lookup_mem_collect (asm : Assemblies) (n : String) (a : Asmdef)
    (h : lookupAssembly asm n = some a) : (n, a) ∈ asm := by
  unfold lookupAssembly at h
  rcases hfind : asm.find? (fun p => p.1 == n) with _ | p
  · rw [hfind] at h; cases h
  · have hp := List.mem_of_find?_eq_some hfind
    have hb := List.find?_some hfind
    have hbeq := beq_iff_eq.mp hb
    have hval : p.2 = a := by rw [hfind] at h; simpa using h
    have : p = (n, a) := Prod.ext hbeq hval
    exact this ▸ hp

theorem get_build_nodup (parsed : List (Option Asmdef))
    (h : ∀ a, some a ∈ parsed → a.references.Nodup) (n : String) :
    (Graph.get (build_dependency_graph parsed).1 n).Nodup := by
  rcases hl : lookupAssembly (collectAssemblies parsed) n with _ | a
  · rw [get_build_of_lookup_none _ _ hl]
    exact List.nodup_nil
  · rw [get_build_of_lookup _ _ _ hl]
    rcases mem_collect_source parsed _ (lookup_mem_collect _ _ _ hl) with ⟨b, hb, he⟩
    have : a = b := congrArg Prod.snd he
    exact List.Nodup.filter _ (this ▸ h b hb)

theorem edgePairs_build_nodup (parsed : List (Option Asmdef))
    (h : ∀ a, some a ∈ parsed → a.references.Nodup) :
    (edgePairs (build_dependency_graph parsed).1).Nodup := by
  unfold edgePairs
  rw [List.nodup_flatMap]
  constructor
  · intro p hp
    have hval : p.2 = Graph.get (build_dependency_graph parsed).1 p.1 :=
      (Graph.get_entry (keys_build_nodup parsed) hp).symm
    rw [hval]
    refine List.Nodup.map ?_ (get_build_nodup parsed h p.1)
    intro x y hxy
    exact (Prod.mk.injEq _ _ _ _ ▸ hxy : _ ∧ _).2
  · have hpw : List.Pairwise (fun p q => p.1 ≠ q.1)
        (build_dependency_graph parsed).1 :=
      List.pairwise_map.mp (keys_build_nodup parsed)
    refine hpw.imp ?_
    intro p q hne
    intro x hx hy
    rcases List.mem_map.mp hx with ⟨u, _, rfl⟩
    rcases List.mem_map.mp hy with ⟨v, _, he⟩
    exact hne (congrArg Prod.fst he).symm

theorem filter_flatMap_comm {α β : Type} (l : List α) (f : α → List β)
    (p : β → Bool) :
    ((l.flatMap f).filter p) = l.flatMap (fun x => (f x).filter p) := by
  induction l with
  | nil => rfl
  | cons x l ih => simp [List.flatMap_cons, List.filter_append, ih]

theorem sum_map_filter_eq (l : List String) (p : String → Bool) (F : String → Nat) :
    (((l.filter p).map F).sum) = (l.map (fun x => if p x then F x else 0)).sum := by
  induction l with
  | nil => rfl
  | cons x l ih =>
    by_cases hx : p x = true
    · rw [List.filter_cons_of_pos hx, List.map_cons, List.map_cons, List.sum_cons,
        List.sum_cons, if_pos hx, ih]
    · rw [List.filter_cons_of_neg (by simpa using hx), List.map_cons, List.sum_cons,
        if_neg hx, ih]
      omega

theorem sum_map_eq_of_superset (L K : List String) (G : String → Nat)
    (hL : L.Nodup) (hK : K.Nodup) (hsub : ∀ x ∈ K, x ∈ L)
    (hzero : ∀ x ∈ L, x ∉ K → G x = 0) :
    (L.map G).sum = (K.map G).sum := by
  have hperm : (L.filter (fun x => decide (x ∈ K))).Perm K := by
    rw [List.perm_ext_iff_of_nodup (hL.filter _) hK]
    intro a
    simp only [List.mem_filter, decide_eq_true_eq]
    exact ⟨fun h' => h'.2, fun h' => ⟨hsub a h', h'⟩⟩
  have hsplit := List.filter_append_perm (fun x => decide (x ∈ K)) L
  calc (L.map G).sum
      = ((L.filter (fun x => decide (x ∈ K)) ++
          L.filter (fun x => !decide (x ∈ K))).map G).sum :=
        ((hsplit.map G).sum_eq).symm
    _ = ((L.filter (fun x => decide (x ∈ K))).map G).sum +
          ((L.filter (fun x => !decide (x ∈ K))).map G).sum := by
        rw [List.map_append, List.sum_append]
    _ = (K.map G).sum + 0 := by
        rw [(hperm.map G).sum_eq]
        congr 1
        apply List.sum_eq_zero
        intro x hx
        rcases List.mem_map.mp hx with ⟨y, hy, rfl⟩
        rcases List.mem_filter.mp hy with ⟨hyL, hyK⟩
        exact hzero y hyL (by simpa using hyK)
    _ = (K.map G).sum := by omega

theorem featureB_eq_of_known (asm : Assemblies) (t : String)
    (ht : t ∈ asm.map Prod.fst) :
    (((asm.map Prod.fst).filter
      (fun n => !(containsSubB n "Shared" || containsSubB n "Unity."))).contains t)
      = !(containsSubB t "Shared" || containsSubB t "Unity.") := by
  rcases hb : !(containsSubB t "Shared" || containsSubB t "Unity.") with _ | _
  · rw [Bool.eq_false_iff]
    intro hc
    have hmem := List.mem_filter.mp (List.elem_iff.mp hc)
    have h2 := hmem.2
    rw [hb] at h2
    exact Bool.false_ne_true h2
  · exact List.elem_iff.mpr (List.mem_filter.mpr ⟨ht, hb⟩)

theorem get_filter_featMem_eq (parsed : List (Option Asmdef)) (s : String) :
    ((Graph.get (build_dependency_graph parsed).1 s).filter
      (fun ref => ((((collectAssemblies parsed).map Prod.fst).filter
        (fun n => !(containsSubB n "Shared" || containsSubB n "Unity."))).contains ref)))
      = ((Graph.get (build_dependency_graph parsed).1 s).filter
          (fun t => !(containsSubB t "Shared" || containsSubB t "Unity."))) := by
  apply List.filter_congr
  intro t ht
  exact featureB_eq_of_known _ t (edge_build_known parsed s t ht).2

/-- C4 counterexample: with a duplicated reference the graph stores the same
shared-to-feature edge twice, so the violation list has 2 entries although
only 1 distinct shared-to-feature edge exists — refuting "exactly N entries
for N distinct edges". -/
theorem claimC4_counterexample :
    distinctSharedFeatureEdgeCount (build_dependency_graph duplicateRefInput).1 = 1 ∧
    (validate_shared_namespace_isolation (build_dependency_graph duplicateRefInput).1
      (build_dependency_graph duplicateRefInput).2).length = 2 := by
  decide

/-- C7 counterexample: with a duplicated reference the adjacency list of the
shared module contains a duplicate target, refuting "no duplicate edge
targets" for arbitrary inputs. -/
theorem claimC7_counterexample :
    Graph.get (build_dependency_graph duplicateRefInput).1 "SharedA" =
      ["FeatB", "FeatB"] ∧
    ¬ (Graph.get (build_dependency_graph duplicateRefInput).1 "SharedA").Nodup := by
  decide

/-- C4 (amended): when every module's declared reference list is free of
duplicates, the violation list has exactly one entry per distinct
shared-to-feature edge of the graph; in general it has one entry per stored
edge occurrence (no early exit and no deduplication). -/
theorem claimC4_amended (parsed : List (Option Asmdef))
    (h : ∀ a, some a ∈ parsed → a.references.Nodup) :
    (validate_shared_namespace_isolation (build_dependency_graph parsed).1
        (build_dependency_graph parsed).2).length =
      distinctSharedFeatureEdgeCount (build_dependency_graph parsed).1 := by
  have hnodupPairs : ((edgePairs (build_dependency_graph parsed).1).filter
      sharedFeaturePairB).Nodup := (edgePairs_build_nodup parsed h).filter _
  unfold distinctSharedFeatureEdgeCount
  rw [List.dedup_eq_self.mpr hnodupPairs]
  unfold edgePairs
  rw [filter_flatMap_comm, List.length_flatMap]
  show ((((collectAssemblies parsed).map Prod.fst).filter
      (fun n => containsSubB n "Shared")).flatMap (fun shared =>
        ((Graph.get (build_dependency_graph parsed).1 shared).filter
          (fun ref => ((((collectAssemblies parsed).map Prod.fst).filter
            (fun n => !(containsSubB n "Shared" || containsSubB n "Unity."))).contains
              ref))).map (fun ref => (shared, ref)))).length = _
  rw [List.length_flatMap]
  simp only [Function.comp_def]
  -- rewrite the violation side into a sum over all assembly names
  have hleft : ((((collectAssemblies parsed).map Prod.fst).filter
      (fun n => containsSubB n "Shared")).map (fun shared =>
        (((Graph.get (build_dependency_graph parsed).1 shared).filter
          (fun ref => ((((collectAssemblies parsed).map Prod.fst).filter
            (fun n => !(containsSubB n "Shared" || containsSubB n "Unity."))).contains
              ref))).map (fun ref => (shared, ref))).length)).sum =
      (((collectAssemblies parsed).map Prod.fst).map (fun n =>
        if containsSubB n "Shared" then
          ((Graph.get (build_dependency_graph parsed).1 n).filter
            (fun t => !(containsSubB t "Shared" || containsSubB t "Unity."))).length
        else 0)).sum := by
    rw [← sum_map_filter_eq]
    apply congrArg
    apply List.map_congr_left
    intro s _
    rw [List.length_map, get_filter_featMem_eq]
  rw [hleft]
  -- rewrite the edge side into a sum over the graph keys
  have hright : (((build_dependency_graph parsed).1).map (fun e =>
      ((e.2.map (fun t => (e.1, t))).filter sharedFeaturePairB).length)).sum =
      ((Graph.keys (build_dependency_graph parsed).1).map (fun n =>
        if containsSubB n "Shared" then
          ((Graph.get (build_dependency_graph parsed).1 n).filter
            (fun t => !(containsSubB t "Shared" || containsSubB t "Unity."))).length
        else 0)).sum := by
    unfold Graph.keys
    rw [List.map_map]
    apply congrArg
    apply List.map_congr_left
    intro e he
    have hval : e.2 = Graph.get (build_dependency_graph parsed).1 e.1 :=
      (Graph.get_entry (keys_build_nodup parsed) he).symm
    rw [List.filter_map, List.length_map]
    show (e.2.filter (sharedFeaturePairB ∘ (fun t => (e.1, t)))).length = _
    have hpred : (sharedFeaturePairB ∘ (fun t => (e.1, t))) = (fun t =>
        containsSubB e.1 "Shared" &&
          !(containsSubB t "Shared" || containsSubB t "Unity.")) := by
      funext t
      rfl
    rw [hpred]
    by_cases hsh : containsSubB e.1 "Shared" = true
    · simp [Function.comp_def, hsh, hval]
    · have hsh' : containsSubB e.1 "Shared" = false := by simpa using hsh
      simp [Function.comp_def, hsh', List.filter_false]
  rw [hright]
  -- a name outside the graph keys has an empty adjacency list
  apply sum_map_eq_of_superset
  · exact collect_names_nodup parsed
  · exact keys_build_nodup parsed
  · exact keys_build_subset parsed
  · intro n _ hnk
    rw [Graph.get_eq_nil_of_not_mem_keys hnk]
    simp

/-- Witness for C4 (amended) at a concrete duplicate-free input: one distinct
shared-to-feature edge, one violation entry. -/
theorem claimC4_amended_witness :
    (validate_shared_namespace_isolation (build_dependency_graph oneViolationInput).1
        (build_dependency_graph oneViolationInput).2).length =
      distinctSharedFeatureEdgeCount (build_dependency_graph oneViolationInput).1 ∧
    (validate_shared_namespace_isolation (build_dependency_graph oneViolationInput).1
        (build_dependency_graph oneViolationInput).2).length = 1 :=
  ⟨claimC4_amended oneViolationInput (by
      intro a ha
      simp only [oneViolationInput, List.mem_cons, List.not_mem_nil, or_false,
        Option.some.injEq] at ha
      rcases ha with rfl | rfl <;> decide),
   by decide⟩

/-! ### Basic facts used by the DFS development -/

theorem dfsNeighbors_zero (g : Graph) (ns V rs path : List String) :
    dfsNeighbors g 0 ns V rs path = (none, V) := rfl

theorem dfsNeighbors_nil (g : Graph) (fuel : Nat) (V rs path : List String) :
    dfsNeighbors g (fuel + 1) [] V rs path = (none, V) := rfl

theorem dfsNeighbors_cons (g : Graph) (fuel : Nat)
    (neighbor : String) (rest V rs path : List String) :
    dfsNeighbors g (fuel + 1) (neighbor :: rest) V rs path =
      if neighbor ∉ V then
        match dfsNeighbors g fuel (Graph.get g neighbor) (neighbor :: V)
            (neighbor :: rs) (path ++ [neighbor]) with
        | (some cycle, visited') => (some cycle, visited')
        | (none, visited') => dfsNeighbors g fuel rest visited' rs path
      else if neighbor ∈ rs then
        (some (path.drop (path.indexOf neighbor) ++ [neighbor]), V)
      else
        dfsNeighbors g fuel rest V rs path := rfl

theorem dfs_succ (g : Graph) (fuel : Nat) (node : String) (V rs path : List String) :
    dfs g (fuel + 1) node V rs path =
      dfsNeighbors g fuel (Graph.get g node) (node :: V) (node :: rs) path := rfl

theorem key_of_edge {g : Graph} {a b : String} (h : Graph.Edge g a b) :
    a ∈ Graph.keys g := by
  by_contra hk
  rw [Graph.Edge, Graph.get_eq_nil_of_not_mem_keys hk] at h
  cases h

theorem keys_subset_univ (g : Graph) : ∀ n ∈ Graph.keys g, n ∈ Graph.univ g :=
  fun _ h => List.mem_append.mpr (Or.inl h)

theorem get_subset_univ (g : Graph) (n : String) :
    ∀ x ∈ Graph.get g n, x ∈ Graph.univ g := by
  intro x hx
  unfold Graph.get at hx
  rcases hfind : g.find? (fun p => p.1 == n) with _ | p
  · rw [hfind] at hx; cases hx
  · rw [hfind] at hx
    refine List.mem_append.mpr (Or.inr ?_)
    unfold Graph.targets
    exact List.mem_flatten.mpr ⟨p.2,
      List.mem_map.mpr ⟨p, List.mem_of_find?_eq_some hfind, rfl⟩, by simpa using hx⟩

theorem get_length_le_Esum (g : Graph) (n : String) :
    (Graph.get g n).length ≤ Esum g := by
  unfold Graph.get
  rcases hfind : g.find? (fun p => p.1 == n) with _ | p
  · rw [hfind]
    simp
  · rw [hfind]
    show p.2.length ≤ Esum g
    exact List.single_le_sum (fun _ _ => Nat.zero_le _) _
      (List.mem_map.mpr ⟨p, List.mem_of_find?_eq_some hfind, rfl⟩)

theorem unvisited_mono (g : Graph) (V₁ V₂ : List String)
    (h : ∀ x ∈ V₁, x ∈ V₂) : unvisitedCount g V₂ ≤ unvisitedCount g V₁ := by
  apply Finset.card_le_card
  intro x hx
  rcases Finset.mem_sdiff.mp hx with ⟨hu, hv⟩
  refine Finset.mem_sdiff.mpr ⟨hu, fun hx1 => hv ?_⟩
  exact List.mem_toFinset.mpr (h x (List.mem_toFinset.mp hx1))

theorem unvisited_lt (g : Graph) (V V₂ : List String) (node : String)
    (hu : node ∈ Graph.univ g) (hnV : node ∉ V) (hsub : ∀ x ∈ V, x ∈ V₂)
    (hnV₂ : node ∈ V₂) : unvisitedCount g V₂ + 1 ≤ unvisitedCount g V := by
  have hnode_mem : node ∈ (Graph.univ g).toFinset \ V.toFinset :=
    Finset.mem_sdiff.mpr ⟨List.mem_toFinset.mpr hu,
      fun h => hnV (List.mem_toFinset.mp h)⟩
  have hsubset : (Graph.univ g).toFinset \ V₂.toFinset ⊆
      ((Graph.univ g).toFinset \ V.toFinset).erase node := by
    intro x hx
    rcases Finset.mem_sdiff.mp hx with ⟨hxu, hxv⟩
    refine Finset.mem_erase.mpr ⟨?_, Finset.mem_sdiff.mpr ⟨hxu, fun h =>
      hxv (List.mem_toFinset.mpr (hsub x (List.mem_toFinset.mp h)))⟩⟩
    intro he
    exact hxv (he ▸ List.mem_toFinset.mpr hnV₂)
  have h1 := Finset.card_le_card hsubset
  rw [Finset.card_erase_of_mem hnode_mem] at h1
  have h2 : 1 ≤ ((Graph.univ g).toFinset \ V.toFinset).card :=
    Finset.card_pos.mpr ⟨node, hnode_mem⟩
  unfold unvisitedCount
  omega

theorem fuelBound_ok (g : Graph) (V : List String) :
    unvisitedCount g V * (Esum g + 1) + 1 ≤ fuelBound g := by
  have h1 : unvisitedCount g V ≤ (Graph.univ g).toFinset.card :=
    Finset.card_le_card (Finset.sdiff_subset)
  have h2 : unvisitedCount g V * (Esum g + 1) ≤
      (Graph.univ g).toFinset.card * (Esum g + 1) :=
    Nat.mul_le_mul_right _ h1
  unfold fuelBound
  have h3 : ((Graph.univ g).toFinset.card + 1) * (Esum g + 1) =
      (Graph.univ g).toFinset.card * (Esum g + 1) + (Esum g + 1) := by ring
  omega

theorem chain_append_singleton {r : String → String → Prop} (x b : String)
    (l : List String) :
    List.Chain r x (l ++ [b]) ↔ List.Chain r x l ∧ r (l.getLastD x) b := by
  induction l generalizing x with
  | nil => simp
  | cons y l ih =>
    rw [List.cons_append, List.chain_cons, ih, List.chain_cons, List.getLastD_cons]
    tauto

theorem chain_rotate {r : String → String → Prop} (v w : String) (l : List String)
    (h : List.Chain r v (w :: (l ++ [v]))) :
    List.Chain r w ((l ++ [v]) ++ [w]) := by
  rcases List.chain_cons.mp h with ⟨hvw, hrest⟩
  refine (chain_append_singleton w w (l ++ [v])).mpr ⟨hrest, ?_⟩
  have : (l ++ [v]).getLastD w = v := by
    rw [List.getLastD_eq_getLast?, List.getLast?_concat]
    rfl
  rw [this]
  exact hvw

theorem chain_mem_targeted {r : String → String → Prop} :
    ∀ (l : List String) (a : String), List.Chain r a l → ∀ y ∈ l, ∃ z, r z y := by
  intro l
  induction l with
  | nil => intro a _ y hy; cases hy
  | cons b l ih =>
    intro a hch y hy
    rcases List.chain_cons.mp hch with ⟨hab, hrest⟩
    rcases List.mem_cons.mp hy with rfl | hy'
    · exact ⟨a, hab⟩
    · exact ih b hrest y hy'

theorem isSimpleCycle_chain {g : Graph} {x : String} {xs : List String}
    (h : IsSimpleCycle g (x :: xs)) :
    List.Chain (Graph.Edge g) x (xs ++ [x]) := by
  rcases h with ⟨-, -, hch, hwrap⟩
  refine (chain_append_singleton x x xs).mpr ⟨hch, ?_⟩
  have h1 : (x :: xs).getLastD "" = xs.getLastD x := List.getLastD_cons _ _ _
  have h2 : (x :: xs).headD "" = x := rfl
  rw [h1, h2] at hwrap
  exact hwrap

theorem isSimpleCycle_targeted {g : Graph} {x : String} {xs : List String}
    (h : IsSimpleCycle g (x :: xs)) :
    ∀ y ∈ x :: xs, ∃ z, Graph.Edge g z y := by
  intro y hy
  rcases List.mem_cons.mp hy with rfl | hy'
  · rcases h with ⟨-, -, -, hwrap⟩
    exact ⟨_, hwrap⟩
  · rcases h with ⟨-, -, hch, -⟩
    exact chain_mem_targeted xs x hch y hy'

/-! ### The DFS never forgets visited nodes -/

theorem dfsNeighbors_visited_mono (g : Graph) :
    ∀ (fuel : Nat) (ns V rs path : List String),
      ∀ x ∈ V, x ∈ (dfsNeighbors g fuel ns V rs path).2 := by
  intro fuel
  induction fuel with
  | zero => intro ns V rs path x hx; exact hx
  | succ f ih =>
    intro ns V rs path x hx
    cases ns with
    | nil => exact hx
    | cons n rest =>
      rw [dfsNeighbors_cons]
      by_cases hin : n ∉ V
      · rw [if_pos hin]
        rcases hchild : dfsNeighbors g f (Graph.get g n) (n :: V) (n :: rs)
            (path ++ [n]) with ⟨oc, V₂⟩
        have hx₂ : x ∈ V₂ := by
          have := ih (Graph.get g n) (n :: V) (n :: rs) (path ++ [n]) x
            (List.mem_cons.mpr (Or.inr hx))
          rwa [hchild] at this
        cases oc with
        | some c => exact hx₂
        | none => exact ih rest V₂ rs path x hx₂
      · rw [if_neg hin]
        by_cases hrs : n ∈ rs
        · rw [if_pos hrs]
          exact hx
        · rw [if_neg hrs]
          exact ih rest V rs path x hx

/-! ### Preservation of the black-node invariant -/

theorem blackInv_push {g : Graph} {V rs : List String} (n : String)
    (hbi : BlackInv g V rs) (hn : n ∉ V) : BlackInv g (n :: V) (n :: rs) := by
  intro v hv hvrs
  have hv' : v ∈ V := by
    rcases List.mem_cons.mp hv with rfl | h'
    · exact absurd (List.mem_cons_self _ _) hvrs
    · exact h'
  have hvrs' : v ∉ rs := fun h => hvrs (List.mem_cons.mpr (Or.inr h))
  rcases hbi v hv' hvrs' with ⟨hsucc, hcyc⟩
  refine ⟨?_, hcyc⟩
  intro w hw
  rcases hsucc w hw with ⟨hwV, hwrs⟩
  refine ⟨List.mem_cons.mpr (Or.inr hwV), ?_⟩
  intro hwmem
  rcases List.mem_cons.mp hwmem with rfl | h'
  · exact hn hwV
  · exact hwrs h'

theorem blackInv_pop {g : Graph} {V₂ rs : List String} (n : String)
    (hbi : BlackInv g V₂ (n :: rs)) (hn : n ∈ V₂)
    (hsucc : ∀ w ∈ Graph.get g n, w ∈ V₂ ∧ w ∉ n :: rs) : BlackInv g V₂ rs := by
  intro v hv hvrs
  by_cases hvn : v = n
  · subst hvn
    constructor
    · intro w hw
      rcases hsucc w hw with ⟨hwV, hwrs⟩
      exact ⟨hwV, fun h => hwrs (List.mem_cons.mpr (Or.inr h))⟩
    · intro l hch
      cases l with
      | nil =>
        have hedge : Graph.Edge g v v := by
          simpa using hch
        rcases hsucc v hedge with ⟨-, hwrs⟩
        exact hwrs (List.mem_cons_self _ _)
      | cons w l' =>
        rcases List.chain_cons.mp (by simpa using hch) with ⟨hvw, hrest⟩
        rcases hsucc w hvw with ⟨hwV, hwrs⟩
        rcases hbi w hwV hwrs with ⟨-, hwcyc⟩
        exact hwcyc (l' ++ [v]) (chain_rotate v w l' (by simpa using hch))
  · have hvrs' : v ∉ n :: rs := by
      intro h
      rcases List.mem_cons.mp h with rfl | h'
      · exact hvn rfl
      · exact hvrs h'
    rcases hbi v hv hvrs' with ⟨hsucc', hcyc⟩
    refine ⟨?_, hcyc⟩
    intro w hw
    rcases hsucc' w hw with ⟨hwV, hwrs⟩
    exact ⟨hwV, fun h => hwrs (List.mem_cons.mpr (Or.inr h))⟩

/-! ### Branch equations of the neighbor loop -/

theorem dfsNeighbors_cons_unvisited_found (g : Graph) (fuel : Nat)
    {n : String} {rest V rs path : List String} {c V₂ : List String}
    (h : n ∉ V)
    (hchild : dfsNeighbors g fuel (Graph.get g n) (n :: V) (n :: rs)
      (path ++ [n]) = (some c, V₂)) :
    dfsNeighbors g (fuel + 1) (n :: rest) V rs path = (some c, V₂) := by
  rw [dfsNeighbors_cons, if_pos h, hchild]

theorem dfsNeighbors_cons_unvisited_clean (g : Graph) (fuel : Nat)
    {n : String} {rest V rs path : List String} {V₂ : List String}
    (h : n ∉ V)
    (hchild : dfsNeighbors g fuel (Graph.get g n) (n :: V) (n :: rs)
      (path ++ [n]) = (none, V₂)) :
    dfsNeighbors g (fuel + 1) (n :: rest) V rs path =
      dfsNeighbors g fuel rest V₂ rs path := by
  rw [dfsNeighbors_cons, if_pos h, hchild]

theorem dfsNeighbors_cons_on_stack (g : Graph) (fuel : Nat)
    {n : String} {rest V rs path : List String}
    (h1 : n ∈ V) (h2 : n ∈ rs) :
    dfsNeighbors g (fuel + 1) (n :: rest) V rs path =
      (some (path.drop (path.indexOf n) ++ [n]), V) := by
  rw [dfsNeighbors_cons, if_neg (not_not_intro h1), if_pos h2]

theorem dfsNeighbors_cons_skip (g : Graph) (fuel : Nat)
    {n : String} {rest V rs path : List String}
    (h1 : n ∈ V) (h2 : n ∉ rs) :
    dfsNeighbors g (fuel + 1) (n :: rest) V rs path =
      dfsNeighbors g fuel rest V rs path := by
  rw [dfsNeighbors_cons, if_neg (not_not_intro h1), if_neg h2]

/-! ### When the DFS reports no cycle, black nodes are safe -/

theorem dfsNeighbors_none_inv (g : Graph) :
    ∀ (fuel : Nat) (ns V rs path V' : List String),
      dfsNeighbors g fuel ns V rs path = (none, V') →
      BlackInv g V rs →
      (∀ x ∈ rs, x ∈ V) →
      (∀ x ∈ ns, x ∈ Graph.univ g) →
      unvisitedCount g V * (Esum g + 1) + ns.length + 1 ≤ fuel →
      BlackInv g V' rs ∧ (∀ x ∈ V, x ∈ V') ∧ (∀ x ∈ ns, x ∈ V' ∧ x ∉ rs) := by
  intro fuel
  induction fuel with
  | zero =>
    intro ns V rs path V' _ _ _ _ hfuel
    omega
  | succ f ih =>
    intro ns V rs path V' heq hbi hrsV hnsu hfuel
    cases ns with
    | nil =>
      rw [dfsNeighbors_nil] at heq
      have hV : V = V' := congrArg Prod.snd heq
      subst hV
      exact ⟨hbi, fun x hx => hx, fun x hx => absurd hx (List.not_mem_nil x)⟩
    | cons n rest =>
      rw [List.length_cons] at hfuel
      by_cases hin : n ∉ V
      · rcases hchild : dfsNeighbors g f (Graph.get g n) (n :: V) (n :: rs)
            (path ++ [n]) with ⟨oc, V₂⟩
        cases oc with
        | some c =>
          rw [dfsNeighbors_cons_unvisited_found g f hin hchild] at heq
          exact absurd (congrArg Prod.fst heq) (by simp)
        | none =>
          rw [dfsNeighbors_cons_unvisited_clean g f hin hchild] at heq
          -- fuel for the child call
          have hnu : n ∈ Graph.univ g := hnsu n (List.mem_cons_self _ _)
          have hlt : unvisitedCount g (n :: V) + 1 ≤ unvisitedCount g V :=
            unvisited_lt g V (n :: V) n hnu hin
              (fun x hx => List.mem_cons.mpr (Or.inr hx)) (List.mem_cons_self _ _)
          have hmul := Nat.mul_le_mul_right (Esum g + 1) hlt
          rw [Nat.succ_mul] at hmul
          have hge : (Graph.get g n).length ≤ Esum g := get_length_le_Esum g n
          have hchildfuel : unvisitedCount g (n :: V) * (Esum g + 1) +
              (Graph.get g n).length + 1 ≤ f := by omega
          have hchildpost := ih (Graph.get g n) (n :: V) (n :: rs) (path ++ [n]) V₂
            hchild (blackInv_push n hbi hin)
            (by
              intro x hx
              rcases List.mem_cons.mp hx with rfl | h'
              · exact List.mem_cons_self _ _
              · exact List.mem_cons.mpr (Or.inr (hrsV x h')))
            (get_subset_univ g n) hchildfuel
          rcases hchildpost with ⟨hbi₂, hmono₂, hsucc₂⟩
          have hnV₂ : n ∈ V₂ := hmono₂ n (List.mem_cons_self _ _)
          have hbi₂' : BlackInv g V₂ rs := blackInv_pop n hbi₂ hnV₂ hsucc₂
          -- fuel for the continuation
          have hmono₂' : ∀ x ∈ V, x ∈ V₂ :=
            fun x hx => hmono₂ x (List.mem_cons.mpr (Or.inr hx))
          have hle₂ : unvisitedCount g V₂ ≤ unvisitedCount g (n :: V) :=
            unvisited_mono g (n :: V) V₂ hmono₂
          have hlt₂ : unvisitedCount g V₂ + 1 ≤ unvisitedCount g V := by omega
          have hmul₂ := Nat.mul_le_mul_right (Esum g + 1) hlt₂
          rw [Nat.succ_mul] at hmul₂
          have hcontfuel : unvisitedCount g V₂ * (Esum g + 1) +
              rest.length + 1 ≤ f := by omega
          have hcontpost := ih rest V₂ rs path V' heq hbi₂'
            (fun x hx => hmono₂' x (hrsV x hx))
            (fun x hx => hnsu x (List.mem_cons.mpr (Or.inr hx))) hcontfuel
          rcases hcontpost with ⟨hbi', hmono', hns'⟩
          refine ⟨hbi', fun x hx => hmono' x (hmono₂' x hx), ?_⟩
          intro x hx
          rcases List.mem_cons.mp hx with rfl | h'
          · exact ⟨hmono' x (hmono₂ x (List.mem_cons_self _ _)),
              fun h => hin (hrsV x h)⟩
          · exact hns' x h'
      · have hin' : n ∈ V := not_not.mp hin
        by_cases hrs : n ∈ rs
        · rw [dfsNeighbors_cons_on_stack g f hin' hrs] at heq
          exact absurd (congrArg Prod.fst heq) (by simp)
        · rw [dfsNeighbors_cons_skip g f hin' hrs] at heq
          have hcontfuel : unvisitedCount g V * (Esum g + 1) +
              rest.length + 1 ≤ f := by omega
          have hcontpost := ih rest V rs path V' heq hbi hrsV
            (fun x hx => hnsu x (List.mem_cons.mpr (Or.inr hx))) hcontfuel
          rcases hcontpost with ⟨hbi', hmono', hns'⟩
          refine ⟨hbi', hmono', ?_⟩
          intro x hx
          rcases List.mem_cons.mp hx with rfl | h'
          · exact ⟨hmono' x hin', hrs⟩
          · exact hns' x h'

theorem dfs_none_inv (g : Graph) (fuel : Nat) (node : String)
    (V rs path V' : List String)
    (heq : dfs g fuel node V rs path = (none, V'))
    (hbi : BlackInv g V rs) (hrsV : ∀ x ∈ rs, x ∈ V) (hnode : node ∉ V)
    (hmem : node ∈ Graph.univ g)
    (hfuel : unvisitedCount g V * (Esum g + 1) + 1 ≤ fuel) :
    BlackInv g V' rs ∧ (∀ x ∈ V, x ∈ V') ∧ node ∈ V' := by
  cases fuel with
  | zero => omega
  | succ f =>
    rw [dfs_succ] at heq
    have hlt : unvisitedCount g (node :: V) + 1 ≤ unvisitedCount g V :=
      unvisited_lt g V (node :: V) node hmem hnode
        (fun x hx => List.mem_cons.mpr (Or.inr hx)) (List.mem_cons_self _ _)
    have hmul := Nat.mul_le_mul_right (Esum g + 1) hlt
    rw [Nat.succ_mul] at hmul
    have hge : (Graph.get g node).length ≤ Esum g := get_length_le_Esum g node
    have hf : unvisitedCount g (node :: V) * (Esum g + 1) +
        (Graph.get g node).length + 1 ≤ f := by omega
    have hpost := dfsNeighbors_none_inv g f (Graph.get g node) (node :: V)
      (node :: rs) path V' heq (blackInv_push node hbi hnode)
      (by
        intro x hx
        rcases List.mem_cons.mp hx with rfl | h'
        · exact List.mem_cons_self _ _
        · exact List.mem_cons.mpr (Or.inr (hrsV x h')))
      (get_subset_univ g node) hf
    rcases hpost with ⟨hbi₂, hmono₂, hsucc₂⟩
    have hnV' : node ∈ V' := hmono₂ node (List.mem_cons_self _ _)
    exact ⟨blackInv_pop node hbi₂ hnV' hsucc₂,
      fun x hx => hmono₂ x (List.mem_cons.mpr (Or.inr hx)), hnV'⟩

theorem detectLoop_none_inv (g : Graph) :
    ∀ (ks V V' : List String), detectLoop g ks V = (none, V') →
      BlackInv g V [] → (∀ k ∈ ks, k ∈ Graph.keys g) →
      BlackInv g V' [] ∧ (∀ x ∈ V, x ∈ V') ∧ (∀ k ∈ ks, k ∈ V') := by
  intro ks
  induction ks with
  | nil =>
    intro V V' heq hbi _
    have hV : V = V' := congrArg Prod.snd heq
    subst hV
    exact ⟨hbi, fun x hx => hx, fun k hk => absurd hk (List.not_mem_nil k)⟩
  | cons n ks ih =>
    intro V V' heq hbi hks
    unfold detectLoop at heq
    by_cases hin : n ∉ V
    · rw [if_pos hin] at heq
      rcases hchild : dfs g (fuelBound g) n V [] [n] with ⟨oc, V₂⟩
      rw [hchild] at heq
      cases oc with
      | some c => exact absurd (congrArg Prod.fst heq) (by simp)
      | none =>
        have hpost := dfs_none_inv g (fuelBound g) n V [] [n] V₂ hchild hbi
          (fun x hx => absurd hx (List.not_mem_nil x)) hin
          (keys_subset_univ g n (hks n (List.mem_cons_self _ _)))
          (fuelBound_ok g V)
        rcases hpost with ⟨hbi₂, hmono₂, hnV₂⟩
        have hcont := ih V₂ V' heq hbi₂
          (fun k hk => hks k (List.mem_cons.mpr (Or.inr hk)))
        rcases hcont with ⟨hbi', hmono', hks'⟩
        refine ⟨hbi', fun x hx => hmono' x (hmono₂ x hx), ?_⟩
        intro k hk
        rcases List.mem_cons.mp hk with rfl | h'
        · exact hmono' k hnV₂
        · exact hks' k h'
    · rw [if_neg hin] at heq
      have hcont := ih V V' heq hbi
        (fun k hk => hks k (List.mem_cons.mpr (Or.inr hk)))
      rcases hcont with ⟨hbi', hmono', hks'⟩
      refine ⟨hbi', hmono', ?_⟩
      intro k hk
      rcases List.mem_cons.mp hk with rfl | h'
      · exact hmono' k (not_not.mp hin)
      · exact hks' k h'

theorem detect_none_no_cycle_walk (g : Graph)
    (h : detect_circular_dependencies g = none) :
    ∀ (v : String) (l : List String), ¬ List.Chain (Graph.Edge g) v (l ++ [v]) := by
  intro v l hch
  unfold detect_circular_dependencies at h
  rcases hloop : detectLoop g (Graph.keys g) [] with ⟨oc, V'⟩
  rw [hloop] at h
  simp only at h
  subst h
  have hpost := detectLoop_none_inv g (Graph.keys g) [] V' hloop
    (fun x hx _ => absurd hx (List.not_mem_nil x)) (fun k hk => hk)
  rcases hpost with ⟨hbi, -, hcov⟩
  have hkey : v ∈ Graph.keys g := by
    cases l with
    | nil =>
      have hedge : Graph.Edge g v v := by simpa using hch
      exact key_of_edge hedge
    | cons w l' =>
      rcases List.chain_cons.mp (by simpa using hch) with ⟨hvw, -⟩
      exact key_of_edge hvw
  rcases hbi v (hcov v hkey) (List.not_mem_nil v) with ⟨-, hcyc⟩
  exact hcyc l hch

/-! ### A reported cycle really is a simple cycle of the graph -/

theorem dfsNeighbors_some_cycle (g : Graph) :
    ∀ (fuel : Nat) (ns V rs path₀ : List String) (last : String)
      (p V₂ : List String),
      dfsNeighbors g fuel ns V rs (path₀ ++ [last]) = (some p, V₂) →
      (∀ x ∈ ns, Graph.Edge g last x) →
      (∀ x, x ∈ rs ↔ x ∈ path₀ ++ [last]) →
      (path₀ ++ [last]).Nodup →
      List.Chain' (Graph.Edge g) (path₀ ++ [last]) →
      (∀ x ∈ path₀ ++ [last], x ∈ V) →
      ∃ x xs, IsSimpleCycle g (x :: xs) ∧ p = (x :: xs) ++ [x] := by
  intro fuel
  induction fuel with
  | zero =>
    intro ns V rs path₀ last p V₂ heq _ _ _ _ _
    exact absurd (congrArg Prod.fst heq) (by simp [dfsNeighbors_zero])
  | succ f ih =>
    intro ns V rs path₀ last p V₂ heq hns hrsiff hnd hch hpv
    cases ns with
    | nil =>
      exact absurd (congrArg Prod.fst heq) (by simp [dfsNeighbors_nil])
    | cons n rest =>
      by_cases hin : n ∉ V
      · rcases hchild : dfsNeighbors g f (Graph.get g n) (n :: V) (n :: rs)
            ((path₀ ++ [last]) ++ [n]) with ⟨oc, V₃⟩
        cases oc with
        | some c =>
          rw [dfsNeighbors_cons_unvisited_found g f hin hchild] at heq
          have hp : c = p := Option.some.inj (congrArg Prod.fst heq)
          have hihres := ih (Graph.get g n) (n :: V) (n :: rs)
            (path₀ ++ [last]) n c V₃ hchild (fun x hx => hx)
            (by
              intro x
              rw [List.mem_cons, hrsiff x]
              simp only [List.mem_append, List.mem_singleton]
              tauto)
            (by
              rw [List.nodup_append]
              refine ⟨hnd, List.nodup_singleton n, ?_⟩
              intro x hx hx2
              rw [List.mem_singleton] at hx2
              subst hx2
              exact hin (hpv x hx))
            (by
              rw [List.chain'_append]
              refine ⟨hch, List.chain'_singleton n, ?_⟩
              intro x hx y hy
              rw [List.getLast?_concat] at hx
              have hx' : x = last := by simpa [eq_comm] using hx
              have hy' : y = n := by simpa [eq_comm] using hy
              rw [hx', hy']
              exact hns n (List.mem_cons_self _ _))
            (by
              intro x hx
              rcases List.mem_append.mp hx with h' | h'
              · exact List.mem_cons.mpr (Or.inr (hpv x h'))
              · rw [List.mem_singleton] at h'
                subst h'
                exact List.mem_cons_self _ _)
          rcases hihres with ⟨x, xs, hcyc, hpc⟩
          exact ⟨x, xs, hcyc, hp ▸ hpc⟩
        | none =>
          rw [dfsNeighbors_cons_unvisited_clean g f hin hchild] at heq
          refine ih rest V₃ rs path₀ last p V₂ heq
            (fun x hx => hns x (List.mem_cons.mpr (Or.inr hx))) hrsiff hnd hch ?_
          intro x hx
          have hmono := dfsNeighbors_visited_mono g f (Graph.get g n) (n :: V)
            (n :: rs) ((path₀ ++ [last]) ++ [n]) x
            (List.mem_cons.mpr (Or.inr (hpv x hx)))
          rwa [hchild] at hmono
      · have hin' : n ∈ V := not_not.mp hin
        by_cases hrs : n ∈ rs
        · rw [dfsNeighbors_cons_on_stack g f hin' hrs] at heq
          have hp : (path₀ ++ [last]).drop ((path₀ ++ [last]).indexOf n) ++ [n] = p :=
            Option.some.inj (congrArg Prod.fst heq)
          have hnpath : n ∈ path₀ ++ [last] := (hrsiff n).mp hrs
          have hidx : (path₀ ++ [last]).indexOf n < (path₀ ++ [last]).length :=
            List.indexOf_lt_length.mpr hnpath
          have hcne : (path₀ ++ [last]).drop ((path₀ ++ [last]).indexOf n) ≠ [] := by
            rw [← List.length_pos, List.length_drop]
            omega
          have hhead : ((path₀ ++ [last]).drop ((path₀ ++ [last]).indexOf n)).head?
              = some n := by
            rw [List.head?_drop]
            exact List.getElem?_indexOf hnpath
          rcases List.exists_cons_of_ne_nil hcne with ⟨x, xs, hcons⟩
          have hx : x = n := by
            rw [hcons] at hhead
            simpa using hhead
          subst hx
          have hcnodup : (x :: xs).Nodup := by
            rw [← hcons]
            exact (List.drop_sublist _ _).nodup hnd
          have hcchain : List.Chain' (Graph.Edge g) (x :: xs) := by
            rw [← hcons]
            exact hch.suffix (List.drop_suffix _ _)
          have hglast : (x :: xs).getLast? = some last := by
            rw [← hcons]
            have h1 : (path₀ ++ [last]).getLast? = some last := List.getLast?_concat _
            conv at h1 =>
              rw [← List.take_append_drop ((path₀ ++ [last]).indexOf x)
                (path₀ ++ [last])]
            rwa [List.getLast?_append_of_ne_nil _ hcne] at h1
          have hwrap : Graph.Edge g ((x :: xs).getLastD "") ((x :: xs).headD "") := by
            have h1 : (x :: xs).getLastD "" = last := by
              rw [List.getLastD_eq_getLast?, hglast]
              rfl
            have h2 : (x :: xs).headD "" = x := rfl
            rw [h1, h2]
            exact hns x (List.mem_cons_self _ _)
          refine ⟨x, xs, ⟨List.cons_ne_nil x xs, hcnodup, hcchain, hwrap⟩, ?_⟩
          rw [← hp, hcons]
        · rw [dfsNeighbors_cons_skip g f hin' hrs] at heq
          exact ih rest V rs path₀ last p V₂ heq
            (fun x hx => hns x (List.mem_cons.mpr (Or.inr hx))) hrsiff hnd hch hpv

theorem dfs_some_cycle (g : Graph) (fuel : Nat) (node : String)
    (V p V₂ : List String)
    (heq : dfs g fuel node V [] [node] = (some p, V₂)) :
    ∃ x xs, IsSimpleCycle g (x :: xs) ∧ p = (x :: xs) ++ [x] := by
  cases fuel with
  | zero => exact absurd (congrArg Prod.fst heq) (by simp [dfs])
  | succ f =>
    rw [dfs_succ] at heq
    refine dfsNeighbors_some_cycle g f (Graph.get g node) (node :: V) [node]
      [] node p V₂ (by simpa using heq) (fun x hx => hx) ?_ ?_ ?_ ?_
    · intro x
      simp
    · simp
    · simp
    · intro x hx
      rw [List.nil_append, List.mem_singleton] at hx
      subst hx
      exact List.mem_cons_self _ _

theorem detectLoop_some_cycle (g : Graph) :
    ∀ (ks V p V₂ : List String), detectLoop g ks V = (some p, V₂) →
      ∃ x xs, IsSimpleCycle g (x :: xs) ∧ p = (x :: xs) ++ [x] := by
  intro ks
  induction ks with
  | nil =>
    intro V p V₂ heq
    exact absurd (congrArg Prod.fst heq) (by simp [detectLoop])
  | cons n ks ih =>
    intro V p V₂ heq
    unfold detectLoop at heq
    by_cases hin : n ∉ V
    · rw [if_pos hin] at heq
      rcases hchild : dfs g (fuelBound g) n V [] [n] with ⟨oc, V₃⟩
      rw [hchild] at heq
      cases oc with
      | some c =>
        have hp : c = p := Option.some.inj (congrArg Prod.fst heq)
        rcases dfs_some_cycle g (fuelBound g) n V c V₃ hchild with ⟨x, xs, hc, hpc⟩
        exact ⟨x, xs, hc, hp ▸ hpc⟩
      | none => exact ih V₃ p V₂ heq
    · rw [if_neg hin] at heq
      exact ih V p V₂ heq

theorem detect_some_cycle (g : Graph) (p : List String)
    (h : detect_circular_dependencies g = some p) :
    ∃ x xs, IsSimpleCycle g (x :: xs) ∧ p = (x :: xs) ++ [x] := by
  unfold detect_circular_dependencies at h
  rcases hloop : detectLoop g (Graph.keys g) [] with ⟨oc, V'⟩
  rw [hloop] at h
  simp only at h
  subst h
  exact detectLoop_some_cycle g (Graph.keys g) [] p V' hloop

/-! ### Claims about the cycle detector -/

/-- C2: for every dependency graph without a simple cycle the detector
returns "no cycle", and it does so only after the driver loop has explored
every node: every key of the graph ends up in the final visited set. -/
theorem claimC2_acyclic_none (g : Graph) (h : ∀ c, ¬ IsSimpleCycle g c) :
    detect_circular_dependencies g = none ∧
      ∀ k ∈ Graph.keys g, k ∈ (detectLoop g (Graph.keys g) []).2 := by
  rcases hloop : detectLoop g (Graph.keys g) [] with ⟨oc, V'⟩
  cases oc with
  | some p =>
    rcases detectLoop_some_cycle g (Graph.keys g) [] p V' hloop with ⟨x, xs, hc, -⟩
    exact absurd hc (h (x :: xs))
  | none =>
    have hpost := detectLoop_none_inv g (Graph.keys g) [] V' hloop
      (fun x hx _ => absurd hx (List.not_mem_nil x)) (fun k hk => hk)
    constructor
    · unfold detect_circular_dependencies
      rw [hloop]
    · intro k hk
      exact hpost.2.2 k hk

theorem acyclicGraphW_get (z : String) :
    Graph.get acyclicGraphW z = if "A" = z then ["B"] else [] := by
  show Graph.get (("A", ["B"]) :: ("B", ([] : List String)) :: []) z = _
  rw [Graph.get_cons, Graph.get_cons]
  by_cases h1 : "A" = z
  · rw [if_pos h1, if_pos h1]
  · rw [if_neg h1, if_neg h1]
    by_cases h2 : "B" = z
    · rw [if_pos h2]
    · rw [if_neg h2]
      rfl

theorem acyclicGraphW_no_cycle : ∀ c, ¬ IsSimpleCycle acyclicGraphW c := by
  intro c hc
  rcases c with _ | ⟨x, xs⟩
  · exact hc.1 rfl
  · have helem : ∀ y ∈ x :: xs, y = "B" := by
      intro y hy
      rcases isSimpleCycle_targeted hc y hy with ⟨z, hz⟩
      rw [Graph.Edge, acyclicGraphW_get z] at hz
      by_cases hzA : "A" = z
      · rw [if_pos hzA] at hz
        simpa using hz
      · rw [if_neg hzA] at hz
        cases hz
    have hx : x = "B" := helem x (List.mem_cons_self _ _)
    have hxs : xs = [] := by
      rw [List.eq_nil_iff_forall_not_mem]
      intro y hy
      have hyB := helem y (List.mem_cons.mpr (Or.inr hy))
      rcases List.nodup_cons.mp hc.2.1 with ⟨hxnot, -⟩
      exact hxnot (by rw [hx, ← hyB]; exact hy)
    subst hx
    subst hxs
    have hwrap := hc.2.2.2
    exact absurd hwrap (by decide)

/-- Witness for C2 at a concrete acyclic graph. -/
theorem claimC2_acyclic_none_witness :
    detect_circular_dependencies acyclicGraphW = none ∧
      ∀ k ∈ Graph.keys acyclicGraphW,
        k ∈ (detectLoop acyclicGraphW (Graph.keys acyclicGraphW) []).2 :=
  claimC2_acyclic_none acyclicGraphW acyclicGraphW_no_cycle

/-- C3: if the graph has a simple cycle and every simple cycle has length k
(in particular if it has exactly one simple cycle, of length k), the detector
returns a path of length k + 1 whose first and last entries coincide and whose
consecutive entries are joined by graph edges. -/
theorem claimC3_unique_cycle (g : Graph) (k : Nat)
    (hex : ∃ c, IsSimpleCycle g c)
    (hall : ∀ c, IsSimpleCycle g c → c.length = k) :
    ∃ p, detect_circular_dependencies g = some p ∧ p.length = k + 1 ∧
      p.head? = p.getLast? ∧ List.Chain' (Graph.Edge g) p := by
  rcases hdet : detect_circular_dependencies g with _ | p
  · exfalso
    rcases hex with ⟨c, hc⟩
    rcases c with _ | ⟨x, xs⟩
    · exact hc.1 rfl
    · exact detect_none_no_cycle_walk g hdet x xs (isSimpleCycle_chain hc)
  · rcases detect_some_cycle g p hdet with ⟨x, xs, hc, rfl⟩
    refine ⟨(x :: xs) ++ [x], rfl, ?_, ?_, ?_⟩
    · have hl := hall (x :: xs) hc
      simp only [List.length_append, List.length_cons, List.length_nil] at hl ⊢
      omega
    · rw [List.getLast?_concat]
      rfl
    · rw [List.chain'_append]
      refine ⟨hc.2.2.1, List.chain'_singleton x, ?_⟩
      intro a ha y hy
      have hy' : y = x := by simpa [eq_comm] using hy
      have hga : (x :: xs).getLastD "" = a := by
        rw [List.getLastD_eq_getLast?]
        have ha' : (x :: xs).getLast? = some a := ha
        rw [ha']
        rfl
      have hwrap := hc.2.2.2
      rw [hga] at hwrap
      rw [hy']
      exact hwrap

theorem selfLoopGraphW_get (z : String) :
    Graph.get selfLoopGraphW z = if "A" = z then ["A"] else [] := by
  show Graph.get (("A", ["A"]) :: []) z = _
  rw [Graph.get_cons]
  by_cases h1 : "A" = z
  · rw [if_pos h1, if_pos h1]
  · rw [if_neg h1, if_neg h1]
    rfl

theorem selfLoopGraphW_cycle_length :
    ∀ c, IsSimpleCycle selfLoopGraphW c → c.length = 1 := by
  intro c hc
  rcases c with _ | ⟨x, xs⟩
  · exact absurd rfl hc.1
  · have helem : ∀ y ∈ x :: xs, y = "A" := by
      intro y hy
      rcases isSimpleCycle_targeted hc y hy with ⟨z, hz⟩
      rw [Graph.Edge, selfLoopGraphW_get z] at hz
      by_cases hzA : "A" = z
      · rw [if_pos hzA] at hz
        simpa using hz
      · rw [if_neg hzA] at hz
        cases hz
    have hx : x = "A" := helem x (List.mem_cons_self _ _)
    have hxs : xs = [] := by
      rw [List.eq_nil_iff_forall_not_mem]
      intro y hy
      have hyA := helem y (List.mem_cons.mpr (Or.inr hy))
      rcases List.nodup_cons.mp hc.2.1 with ⟨hxnot, -⟩
      exact hxnot (by rw [hx, ← hyA]; exact hy)
    rw [hxs]
    rfl

/-- Witness for C3 at a concrete graph whose only simple cycle is the
self-loop on `A` (k = 1): the detector reports a 2-element path. -/
theorem claimC3_unique_cycle_witness :
    ∃ p, detect_circular_dependencies selfLoopGraphW = some p ∧ p.length = 1 + 1 ∧
      p.head? = p.getLast? ∧ List.Chain' (Graph.Edge selfLoopGraphW) p :=
  claimC3_unique_cycle selfLoopGraphW 1
    ⟨["A"], by decide, by decide, List.chain'_singleton "A", by decide⟩
    selfLoopGraphW_cycle_length

/-! ### The self-reference and driver-order claims -/

theorem detectLoop_cons (g : Graph) (n : String) (ks V : List String) :
    detectLoop g (n :: ks) V =
      if n ∉ V then
        match dfs g (fuelBound g) n V [] [n] with
        | (some cycle, visited') => (some cycle, visited')
        | (none, visited') => detectLoop g ks visited'
      else detectLoop g ks V := rfl

theorem detectLoop_cons_found (g : Graph) {n : String} {ks V c V₂ : List String}
    (h : n ∉ V) (hdfs : dfs g (fuelBound g) n V [] [n] = (some c, V₂)) :
    detectLoop g (n :: ks) V = (some c, V₂) := by
  rw [detectLoop_cons, if_pos h, hdfs]

theorem fuelBound_inner_pos (g : Graph) :
    ∃ f2, ((Graph.univ g).toFinset.card + 1) * (Esum g + 1) = f2 + 1 := by
  refine ⟨((Graph.univ g).toFinset.card + 1) * (Esum g + 1) - 1, ?_⟩
  have h1 : 1 ≤ ((Graph.univ g).toFinset.card + 1) * (Esum g + 1) :=
    Nat.one_le_iff_ne_zero.mpr
      (Nat.mul_ne_zero (Nat.succ_ne_zero _) (Nat.succ_ne_zero _))
  omega

/-- C10 counterexample: the third module `C` references itself, yet the
reported cycle is the first one found, `[A, B, A]`, not `[C, C]` — refuting
"the Cycle Detector reports the two-element cycle [name, name]" as a
universal statement. -/
theorem claimC10_counterexample :
    (∃ a, some a ∈ cycleBeforeSelfLoopInput ∧ a.name = "C" ∧
      "C" ∈ a.references) ∧
    detect_circular_dependencies (build_dependency_graph cycleBeforeSelfLoopInput).1 =
      some ["A", "B", "A"] ∧
    some ["A", "B", "A"] ≠ some ["C", "C"] := by
  refine ⟨⟨⟨"C", ["C"], "C.asmdef"⟩, by decide, rfl, by decide⟩, by decide, by decide⟩

/-- C10 (amended): a module whose reference list contains its own name (and
which wins the collection pass for that name) produces a self-edge, and the
run fails with exit code 1; when the self-referencing module is processed
alone, the detector reports exactly the two-element cycle [name, name]. -/
theorem claimC10_amended :
    (∀ (parsed : List (Option Asmdef)) (a : Asmdef),
      lookupAssembly (collectAssemblies parsed) a.name = some a →
      a.name ∈ a.references →
      Graph.Edge (build_dependency_graph parsed).1 a.name a.name ∧
        mainExit parsed = 1) ∧
    (∀ a : Asmdef, a.name ∈ a.references →
      detect_circular_dependencies (build_dependency_graph [some a]).1 =
        some [a.name, a.name]) := by
  constructor
  · intro parsed a hlook href
    have hknow : isKnown (collectAssemblies parsed) a.name = true :=
      (isKnown_iff _ _).mpr (lookup_mem_names _ _ _ hlook)
    have hedge : Graph.Edge (build_dependency_graph parsed).1 a.name a.name := by
      rw [Graph.Edge, get_build_of_lookup parsed a.name a hlook]
      exact List.mem_filter.mpr ⟨href, hknow⟩
    refine ⟨hedge, ?_⟩
    rcases hdet : detect_circular_dependencies (build_dependency_graph parsed).1
        with _ | c
    · exfalso
      refine detect_none_no_cycle_walk _ hdet a.name [] ?_
      simpa using hedge
    · simp [mainExit, mainReport, hdet]
  · intro a href
    have hasm : collectAssemblies [some a] = [(a.name, a)] := rfl
    have hlook : lookupAssembly (collectAssemblies [some a]) a.name = some a := by
      rw [hasm, lookupAssembly_cons, if_pos rfl]
    have hknow : isKnown (collectAssemblies [some a]) a.name = true := by
      rw [isKnown_iff, hasm]
      simp
    have hget : Graph.get (build_dependency_graph [some a]).1 a.name =
        a.references.filter (isKnown (collectAssemblies [some a])) :=
      get_build_of_lookup [some a] a.name a hlook
    have hmemf : a.name ∈ a.references.filter (isKnown (collectAssemblies [some a])) :=
      List.mem_filter.mpr ⟨href, hknow⟩
    have hkeys : Graph.keys (build_dependency_graph [some a]).1 = [a.name] := by
      rw [keys_build, hasm]
      have hany : a.references.any (isKnown [(a.name, a)]) = true :=
        List.any_eq_true.mpr ⟨a.name, href, hknow⟩
      simp [List.filter_cons, hany]
    have hdfs : dfs (build_dependency_graph [some a]).1
        (fuelBound (build_dependency_graph [some a]).1) a.name [] [] [a.name] =
        (some [a.name, a.name], [a.name]) := by
      rcases fuelBound_inner_pos (build_dependency_graph [some a]).1 with ⟨f2, hf2⟩
      have hfb : fuelBound (build_dependency_graph [some a]).1 =
          (((Graph.univ (build_dependency_graph [some a]).1).toFinset.card + 1) *
            (Esum (build_dependency_graph [some a]).1 + 1)) + 1 := rfl
      rw [hfb, dfs_succ, hget]
      rcases List.exists_cons_of_ne_nil (List.ne_nil_of_mem hmemf) with ⟨r, rest, hr⟩
      have hrval : r = a.name := by
        have hrmem : r ∈ a.references.filter (isKnown (collectAssemblies [some a])) := by
          rw [hr]
          exact List.mem_cons_self _ _
        have hk := List.of_mem_filter hrmem
        rw [isKnown_iff, hasm] at hk
        simpa using hk
      rw [hr, hrval, hf2, dfsNeighbors_cons_on_stack _ _ (List.mem_cons_self _ _)
        (List.mem_cons_self _ _), List.indexOf_cons_self, List.drop_zero]
      rfl
    unfold detect_circular_dependencies
    rw [hkeys, detectLoop_cons_found _ (List.not_mem_nil a.name) hdfs]

/-- Witness for C10 (amended): for the concrete self-referencing manifest the
self-edge exists, the run fails, and the detector reports [S, S]. -/
theorem claimC10_amended_witness :
    (Graph.Edge (build_dependency_graph [some selfRefManifest]).1 "S" "S" ∧
      mainExit [some selfRefManifest] = 1) ∧
    detect_circular_dependencies (build_dependency_graph [some selfRefManifest]).1 =
      some ["S", "S"] :=
  ⟨claimC10_amended.1 [some selfRefManifest] selfRefManifest (by decide) (by decide),
   claimC10_amended.2 selfRefManifest (by decide)⟩

/-! ### The driver claims -/

/-- C1 counterexample: on an input with both a cycle and an isolation
violation, the violation exists but the driver's report omits it — the
isolation check is skipped as soon as a cycle is found, refuting "the
isolation check is executed and its violations are included in the verdict
even when the cycle detector has already found a cycle". -/
theorem claimC1_counterexample :
    validate_shared_namespace_isolation
      (build_dependency_graph cycleAndViolationInput).1
      (build_dependency_graph cycleAndViolationInput).2 = [("SharedX", "FeatY")] ∧
    (detect_circular_dependencies
      (build_dependency_graph cycleAndViolationInput).1).isSome = true ∧
    (mainReport cycleAndViolationInput).2.2 = [] := by
  decide

/-- C1 (amended): when the cycle detector finds a cycle, `main` returns exit
code 1 immediately with the cycle and no violation report (the isolation
check is skipped); only when no cycle is found does the driver run the
isolation check and report its violations in the verdict. -/
theorem claimC1_amended (parsed : List (Option Asmdef)) :
    (∀ c, detect_circular_dependencies (build_dependency_graph parsed).1 = some c →
      mainReport parsed = (1, some c, [])) ∧
    (detect_circular_dependencies (build_dependency_graph parsed).1 = none →
      mainReport parsed =
        (if (validate_shared_namespace_isolation (build_dependency_graph parsed).1
            (build_dependency_graph parsed).2).isEmpty then 0 else 1, none,
          validate_shared_namespace_isolation (build_dependency_graph parsed).1
            (build_dependency_graph parsed).2)) := by
  constructor
  · intro c hdet
    simp [mainReport, hdet]
  · intro hdet
    simp [mainReport, hdet]

/-- Witness for C1 (amended) at concrete inputs: one run that stops at the
cycle, one run that reaches the isolation check. -/
theorem claimC1_amended_witness :
    mainReport cycleAndViolationInput =
      (1, some ["SharedX", "FeatY", "SharedX"], []) ∧
    mainReport oneViolationInput = (1, none, [("SharedX", "FeatY")]) := by
  constructor
  · exact (claimC1_amended cycleAndViolationInput).1
      ["SharedX", "FeatY", "SharedX"] (by decide)
  · rw [(claimC1_amended oneViolationInput).2 (by decide)]
    decide

/-- C6 counterexample: in this module set the graph keys are stored in the
order [B, A]; the detector reports B's cycle while a sorted-order traversal
would report A's — refuting "starts depth-first searches in ascending sorted
order of module names". -/
theorem claimC6_counterexample :
    detect_circular_dependencies (build_dependency_graph twoLoopsInput).1 =
      some ["B", "B"] ∧
    detect_sorted_spec (build_dependency_graph twoLoopsInput).1 = some ["A", "A"] ∧
    detect_circular_dependencies (build_dependency_graph twoLoopsInput).1 ≠
      detect_sorted_spec (build_dependency_graph twoLoopsInput).1 := by
  have hBA : ¬ (("B" : String) ≤ "A") := by
    rw [String.le_iff_toList_le]
    decide
  have hkeys : Graph.keys (build_dependency_graph twoLoopsInput).1 = ["B", "A"] := by
    decide
  have hsort : (Graph.keys (build_dependency_graph twoLoopsInput).1).insertionSort
      (· ≤ ·) = ["A", "B"] := by
    rw [hkeys]
    simp [List.insertionSort, List.orderedInsert, hBA]
  refine ⟨by decide, ?_, ?_⟩
  · unfold detect_sorted_spec
    rw [hsort]
    decide
  · unfold detect_sorted_spec
    rw [hsort]
    decide

/-- C6 (amended): the detector starts its searches from unvisited nodes in
graph-insertion (dict) order; this coincides with the spec's sorted ascending
order exactly when the stored key order is already sorted. -/
theorem claimC6_amended (g : Graph) (h : (Graph.keys g).Sorted (· ≤ ·)) :
    detect_circular_dependencies g = detect_sorted_spec g := by
  unfold detect_circular_dependencies detect_sorted_spec
  rw [List.Sorted.insertionSort_eq h]

/-- Witness for C6 (amended) at a concrete graph with sorted keys. -/
theorem claimC6_amended_witness :
    detect_circular_dependencies sortedKeysGraphW = detect_sorted_spec sortedKeysGraphW :=
  claimC6_amended sortedKeysGraphW (by
    have hAB : ("A" : String) ≤ "B" := by
      rw [String.le_iff_toList_le]
      decide
    show List.Sorted (· ≤ ·) ["A", "B"]
    rw [List.sorted_cons]
    refine ⟨?_, List.sorted_singleton _⟩
    intro b hb
    rw [List.mem_singleton] at hb
    subst hb
    exact hAB)

/-- C7 (amended): the built graph maps each module name to the list of its
known references; both endpoints of every edge are known module names, the
adjacency lists are duplicate-free whenever every module's declared reference
list is, and a name absent from the module set never appears in a reported
cycle or isolation violation. -/
theorem claimC7_amended (parsed : List (Option Asmdef)) :
    (∀ n ∈ Graph.keys (build_dependency_graph parsed).1,
      n ∈ (collectAssemblies parsed).map Prod.fst) ∧
    (∀ n t, t ∈ Graph.get (build_dependency_graph parsed).1 n →
      t ∈ (collectAssemblies parsed).map Prod.fst) ∧
    ((∀ a, some a ∈ parsed → a.references.Nodup) →
      ∀ n, (Graph.get (build_dependency_graph parsed).1 n).Nodup) ∧
    (∀ p, detect_circular_dependencies (build_dependency_graph parsed).1 = some p →
      ∀ y ∈ p, y ∈ (collectAssemblies parsed).map Prod.fst) ∧
    (∀ s t, (s, t) ∈ validate_shared_namespace_isolation
        (build_dependency_graph parsed).1 (build_dependency_graph parsed).2 →
      s ∈ (collectAssemblies parsed).map Prod.fst ∧
      t ∈ (collectAssemblies parsed).map Prod.fst) := by
  refine ⟨keys_build_subset parsed, ?_, ?_, ?_, ?_⟩
  · intro n t ht
    exact (edge_build_known parsed n t ht).2
  · intro hnd n
    exact get_build_nodup parsed hnd n
  · intro p hdet y hy
    rcases detect_some_cycle _ p hdet with ⟨x, xs, hc, rfl⟩
    have hy' : y ∈ x :: xs := by
      rcases List.mem_append.mp hy with h' | h'
      · exact h'
      · rw [List.mem_singleton] at h'
        subst h'
        exact List.mem_cons_self _ _
    rcases isSimpleCycle_targeted hc y hy' with ⟨z, hz⟩
    exact (edge_build_known parsed z y hz).2
  · intro s t hmem
    rcases (mem_validate_iff _ _ s t).mp hmem with ⟨hs, -, -, ht, -, -⟩
    exact ⟨hs, ht⟩

/-- Witness for C7 (amended) at a concrete input: the edge target is a known
module name and the adjacency list of the shared module is duplicate-free. -/
theorem claimC7_amended_witness :
    "FeatY" ∈ (collectAssemblies oneViolationInput).map Prod.fst ∧
    (Graph.get (build_dependency_graph oneViolationInput).1 "SharedX").Nodup :=
  ⟨(claimC7_amended oneViolationInput).2.1 "SharedX" "FeatY" (by decide),
   (claimC7_amended oneViolationInput).2.2.1 (by
      intro a ha
      simp only [oneViolationInput, List.mem_cons, List.not_mem_nil, or_false,
        Option.some.injEq] at ha
      rcases ha with rfl | rfl <;> decide) "SharedX"⟩
